import Mathlib

/-!
Shallow embedding of the `graph` Go library (in-memory generic graph store
plus algorithms) and verification of a fixed list of claims about it.

Modelling conventions:
* Go `map[K]A` values are modelled as association lists `List (K × A)` with
  one fixed iteration order (Go map order is unspecified; the embedding uses
  insertion order, which is one of the behaviours Go permits).
* `float64` weights are modelled as `ℤ`; all weights exercised by the library
  and its scenarios are small integers, on which IEEE double arithmetic is
  exact.
* Go stacks backed by slices (top = last element) are modelled as Lean lists
  with the top at the head; iterating a stack bottom-to-top is `List.reverse`.
* Functions that mutate the receiver and return an `error` are modelled as
  returning the new state together with `Option GraphError`, so that state
  changes made before an early `return err` are observable.
-/

set_option maxRecDepth 4000

namespace GraphLib

/-- Lookup in an association list modelling a Go map read `m[k]`. -/
def mapLookup {K A : Type} [DecidableEq K] (m : List (K × A)) (k : K) : Option A :=
  match m with
  | [] => none
  | (k2, a) :: rest => if k2 = k then some a else mapLookup rest k

/-- Association-list update modelling a Go map write `m[k] = a`
(replace in place if present, append otherwise). -/
def mapInsert {K A : Type} [DecidableEq K] (m : List (K × A)) (k : K) (a : A) : List (K × A) :=
  match m with
  | [] => [(k, a)]
  | (k2, b) :: rest => if k2 = k then (k2, a) :: rest else (k2, b) :: mapInsert rest k a

/-- Association-list removal modelling Go `delete(m, k)`. -/
def mapDelete {K A : Type} [DecidableEq K] (m : List (K × A)) (k : K) : List (K × A) :=
  m.filter (fun p => decide (p.1 ≠ k))

/-- Embeds `len(m[k])`-style read: the bucket under `k`, or empty when absent. -/
def mapGetD {K A : Type} [DecidableEq K] (m : List (K × List A)) (k : K) : List A :=
  (mapLookup m k).getD []

/-- Keys of an association list, in iteration order. -/
def mapKeys {K A : Type} (m : List (K × A)) : List K :=
  m.map Prod.fst

/-- Membership test modelling Go `_, ok := m[k]`. -/
def mapContains {K A : Type} [DecidableEq K] (m : List (K × A)) (k : K) : Bool :=
  (mapLookup m k).isSome

/-- Two-level map write `m[k1][k2] = a` (creating the inner map if needed),
as done by the store's adjacency-index updates. -/
def mapInsert2 {K A : Type} [DecidableEq K] (m : List (K × List (K × A))) (k1 k2 : K) (a : A) :
    List (K × List (K × A)) :=
  mapInsert m k1 (mapInsert (mapGetD m k1) k2 a)

/-- Graph traits (src/unnamed/part_004). -/
structure Traits where
  IsDirected : Bool
  PreventCycles : Bool
  IsVerticesWeighted : Bool
  IsEdgesWeighted : Bool
deriving Repr, DecidableEq

/-- The zero `Traits` value a fresh graph starts from. -/
def Traits.zero : Traits := ⟨false, false, false, false⟩

/-- Embeds `Traits.IsWeighted` (src/unnamed/part_004). -/
def Traits.IsWeighted (t : Traits) : Bool × Bool :=
  (t.IsVerticesWeighted, t.IsEdgesWeighted)

/-- Embeds `Directed()` trait option. -/
def Directed : Traits → Traits := fun t => { t with IsDirected := true }

/-- Embeds `PreventCycles()` trait option. -/
def PreventCyclesOpt : Traits → Traits := fun t => { t with PreventCycles := true }

/-- Embeds `VertexProperties` (src/graph.go): attributes and a float64 weight. -/
structure VertexProperties where
  attributes : List (String × String)
  weight : ℤ
deriving Repr, DecidableEq

/-- Zero value of `VertexProperties`. -/
def VertexProperties.zero : VertexProperties := ⟨[], 0⟩

/-- Embeds `Vertex` (src/graph.go): a value plus properties. -/
structure Vertex (V : Type) where
  value : V
  properties : VertexProperties
deriving Repr, DecidableEq

/-- Embeds `EdgeProperties` (src/graph.go): attributes, float64 weight, payload. -/
structure EdgeProperties (E : Type) where
  attributes : List (String × String)
  weight : ℤ
  data : E
deriving Repr, DecidableEq

/-- Zero value of `EdgeProperties`. -/
def EdgeProperties.zero {E : Type} [Inhabited E] : EdgeProperties E := ⟨[], 0, default⟩

/-- Embeds `Edge` (src/graph.go): source key, target key, properties. -/
structure Edge (K E : Type) where
  source : K
  target : K
  properties : EdgeProperties E
deriving Repr, DecidableEq

/-- The closed error taxonomy of src/errors.go. -/
inductive GraphError (K V E : Type) where
  | vertexAlreadyExists (key : K) (existing : Vertex V)
  | vertexNotFound (key : K)
  | edgeAlreadyExists (existing : Edge K E)
  | edgeNotFound (source target : K)
  | vertexHasEdges (key : K) (count : Nat)
  | edgeCausesCycle (source target : K)
  | updateChangedKey (oldKey newKey : K)
deriving Repr, DecidableEq

/-- Embeds `VertexWeight` functional option. -/
def VertexWeight (w : ℤ) : VertexProperties → VertexProperties :=
  fun p => { p with weight := w }

/-- Embeds `VertexAttribute` functional option. -/
def VertexAttribute (key value : String) : VertexProperties → VertexProperties :=
  fun p => { p with attributes := mapInsert p.attributes key value }

/-- Embeds `EdgeWeight` functional option (src/unnamed/part_007). -/
def EdgeWeight {E : Type} (w : ℤ) : EdgeProperties E → EdgeProperties E :=
  fun p => { p with weight := w }

/-- Embeds `EdgeCopyProperties` (src/unnamed/part_007): copy attributes entry by
entry into the target and overwrite weight and data. -/
def EdgeCopyProperties {E : Type} (props : EdgeProperties E) :
    EdgeProperties E → EdgeProperties E :=
  fun p =>
    { attributes := props.attributes.foldl (fun acc kv => mapInsert acc kv.1 kv.2) p.attributes
      weight := props.weight
      data := props.data }

/-- Embeds `VertexCopyProperties` (src/draw/draw.go line 321): returns an
option that copies the given properties into the target, merging each
attribute entry into the target's attribute map and overwriting the
weight. -/
def VertexCopyProperties (props : VertexProperties) :
    VertexProperties → VertexProperties :=
  fun p =>
    { attributes := props.attributes.foldl (fun acc kv => mapInsert acc kv.1 kv.2) p.attributes
      weight := props.weight }

/-- Apply a list of functional options to a zero properties record,
as the Go `for _, option := range options` loops do. -/
def applyOpts {A : Type} (zero : A) (options : List (A → A)) : A :=
  options.foldl (fun p o => o p) zero

/-- The in-memory store `MemoryGraph` (src/memory.go). The reader/writer
lock is irrelevant to the sequential semantics and is not modelled. -/
structure MemoryGraph (K V E : Type) where
  hash : V → K
  traits : Traits
  vertices : List (K × Vertex V)
  outEdges : List (K × List (K × Edge K E))
  inEdges : List (K × List (K × Edge K E))
  edgeCount : Int

namespace MemoryGraph

variable {K V E : Type} [DecidableEq K]

/-- Embeds `NewMemoryGraph` (src/memory.go): empty store, options applied to traits. -/
def New (hash : V → K) (options : List (Traits → Traits)) : MemoryGraph K V E :=
  { hash := hash
    traits := applyOpts Traits.zero options
    vertices := []
    outEdges := []
    inEdges := []
    edgeCount := 0 }

/-- Embeds `MemoryGraph.Vertex` (src/memory.go line 46). -/
def getVertex (g : MemoryGraph K V E) (hash : K) : Except (GraphError K V E) (Vertex V) :=
  match mapLookup g.vertices hash with
  | none => .error (.vertexNotFound hash)
  | some v => .ok v

/-- Embeds `MemoryGraph.edge` (src/memory.go line 70): direction-aware raw lookup. -/
def edge (g : MemoryGraph K V E) (source target : K) : Option (Edge K E) :=
  match (mapLookup g.outEdges source).bind (fun es => mapLookup es target) with
  | some e => some e
  | none =>
    if !g.traits.IsDirected then
      (mapLookup g.outEdges target).bind (fun es => mapLookup es source)
    else none

/-- Embeds `MemoryGraph.Edge` (src/memory.go line 86): lookup that rewrites the
returned edge to the requested orientation. -/
def getEdge (g : MemoryGraph K V E) (sourceHash targetHash : K) :
    Except (GraphError K V E) (Edge K E) :=
  match g.edge sourceHash targetHash with
  | none => .error (.edgeNotFound sourceHash targetHash)
  | some e => .ok { e with source := sourceHash, target := targetHash }

/-- Embeds `MemoryGraph.AddVertex` (src/memory.go line 126). Note that the
vertices-weighted trait is promoted before the duplicate check. -/
def AddVertex (g : MemoryGraph K V E) (value : V)
    (options : List (VertexProperties → VertexProperties)) :
    MemoryGraph K V E × Option (GraphError K V E) :=
  let k := g.hash value
  let v : Vertex V := ⟨value, applyOpts VertexProperties.zero options⟩
  let g1 :=
    if !g.traits.IsVerticesWeighted && decide (v.properties.weight ≠ 0) then
      { g with traits := { g.traits with IsVerticesWeighted := true } }
    else g
  match mapLookup g1.vertices k with
  | some existing => (g1, some (.vertexAlreadyExists k existing))
  | none => ({ g1 with vertices := mapInsert g1.vertices k v }, none)

/-- Embeds `MemoryGraph.AddVertices` (src/memory.go line 149): two-step
validate-then-commit. The validation pass stores each pending vertex as
`&Vertex{Value: value.Value}`, dropping its `Properties`; the commit pass
then copies those (zeroed) properties into the stored vertex. -/
def AddVertices (g : MemoryGraph K V E) (values : List (Vertex V)) :
    MemoryGraph K V E × Option (GraphError K V E) :=
  let validate : Option (GraphError K V E) :=
    values.foldl
      (fun acc value =>
        match acc with
        | some e => some e
        | none =>
          match mapLookup g.vertices (g.hash value.value) with
          | some existing => some (.vertexAlreadyExists (g.hash value.value) existing)
          | none => none)
      none
  match validate with
  | some e => (g, some e)
  | none =>
    let vs : List (K × Vertex V) :=
      values.foldl (fun acc value => mapInsert acc (g.hash value.value) ⟨value.value, .zero⟩) []
    let committed :=
      vs.foldl
        (fun verts p =>
          mapInsert verts p.1 ⟨p.2.value, VertexCopyProperties p.2.properties .zero⟩)
        g.vertices
    ({ g with vertices := committed }, none)

/-- Embeds `MemoryGraph.UpdateVertex` (src/memory.go line 171): the options mutate
the stored vertex in place (through its pointer) before the key check, so
the mutation persists even when `UpdateChangedKey` is returned. -/
def UpdateVertex (g : MemoryGraph K V E) (hash : K)
    (options : List (Vertex V → Vertex V)) :
    MemoryGraph K V E × Option (GraphError K V E) :=
  match mapLookup g.vertices hash with
  | none => (g, some (.vertexNotFound hash))
  | some v =>
    let v2 := options.foldl (fun v o => o v) v
    let g2 := { g with vertices := mapInsert g.vertices hash v2 }
    let newKey := g.hash v2.value
    if newKey = hash then (g2, none)
    else (g2, some (.updateChangedKey hash newKey))

/-- Embeds `MemoryGraph.RemoveVertex` (src/memory.go line 189). The edge count
adds `len(outEdges[k])` always but `len(inEdges[k])` only for directed
graphs. -/
def RemoveVertex (g : MemoryGraph K V E) (hash : K) :
    MemoryGraph K V E × Option (GraphError K V E) :=
  if !mapContains g.vertices hash then (g, some (.vertexNotFound hash))
  else
    let count :=
      (mapGetD g.outEdges hash).length +
        (if g.traits.IsDirected then (mapGetD g.inEdges hash).length else 0)
    if count > 0 then (g, some (.vertexHasEdges hash count))
    else
      ({ g with
          vertices := mapDelete g.vertices hash
          outEdges := mapDelete g.outEdges hash
          inEdges := mapDelete g.inEdges hash }, none)

end MemoryGraph

/-- Length of a filtered list is monotone in the predicate. -/
theorem length_filter_mono {K : Type} (l : List K) (p q : K → Bool)
    (h : ∀ x, p x = true → q x = true) :
    (l.filter p).length ≤ (l.filter q).length := by
  induction l with
  | nil => simp
  | cons x t ih =>
    by_cases hp : p x = true
    · rw [List.filter_cons_of_pos hp, List.filter_cons_of_pos (h x hp)]
      simpa using ih
    · rw [List.filter_cons_of_neg (by simpa using hp)]
      by_cases hq : q x = true
      · rw [List.filter_cons_of_pos hq]
        exact le_trans ih (Nat.le_succ _)
      · rw [List.filter_cons_of_neg (by simpa using hq)]
        exact ih

/-- Filtered length drops strictly when a member satisfying `q` but not `p`
is present. -/
theorem length_filter_lt {K : Type} (l : List K) (p q : K → Bool)
    (h : ∀ x, p x = true → q x = true) (c : K) (hc : c ∈ l)
    (hq : q c = true) (hp : p c = false) :
    (l.filter p).length < (l.filter q).length := by
  induction l with
  | nil => cases hc
  | cons x t ih =>
    rcases List.mem_cons.mp hc with rfl | hct
    · rw [List.filter_cons_of_pos hq, List.filter_cons_of_neg (by simp [hp])]
      exact Nat.lt_succ_of_le (length_filter_mono t p q h)
    · by_cases hpx : p x = true
      · rw [List.filter_cons_of_pos hpx, List.filter_cons_of_pos (h x hpx)]
        exact Nat.succ_lt_succ (ih hct)
      · rw [List.filter_cons_of_neg (by simpa using hpx)]
        by_cases hqx : q x = true
        · rw [List.filter_cons_of_pos hqx]
          exact Nat.lt_succ_of_lt (ih hct)
        · rw [List.filter_cons_of_neg (by simpa using hqx)]
          exact ih hct

/-- The iterative backwards DFS loop shared by `MemoryGraph.createsCycle`
(src/memory.go line 424) and the generic `CreatesCycle`
(src/unnamed/part_009 line 72): pop a key; skip it when visited; report
success when it is the target; otherwise mark it visited and push its
neighbors from `adjList`. The stack top is the list head. -/
def searchBack {K : Type} [DecidableEq K] (adjList : List (K × List K)) (target : K) :
    List K → List K → Bool
  | [], _ => false
  | c :: rest, visited =>
    if c ∈ visited then searchBack adjList target rest visited
    else if c = target then true
    else searchBack adjList target (mapGetD adjList c ++ rest) (c :: visited)
termination_by stack visited =>
  (((mapKeys adjList).filter (fun x => decide (x ∉ visited))).length, stack.length)
decreasing_by
  · exact Prod.Lex.right _ (Nat.lt_succ_self _)
  · rename_i hvis htgt
    by_cases hck : c ∈ mapKeys adjList
    · exact Prod.Lex.left _ _
        (length_filter_lt (mapKeys adjList) _ _
          (fun x hx => by
            simp only [decide_eq_true_eq] at hx ⊢
            exact fun hmem => hx (List.mem_cons_of_mem _ hmem))
          c hck (by simpa using hvis) (by simp))
    · have hnil : mapGetD adjList c = [] := by
        rcases hlk : mapLookup adjList c with _ | b
        · simp [mapGetD, hlk]
        · exfalso
          apply hck
          clear hvis htgt hck
          induction adjList with
          | nil => simp [mapLookup] at hlk
          | cons p t ih =>
            rw [mapLookup] at hlk
            by_cases hpc : p.1 = c
            · simp [mapKeys, hpc]
            · simp only [if_neg hpc] at hlk
              simp [mapKeys] at ih ⊢
              right
              simpa [mapKeys] using ih hlk
      rcases Nat.lt_or_ge
          (((mapKeys adjList).filter (fun x => decide (x ∉ c :: visited))).length)
          (((mapKeys adjList).filter (fun x => decide (x ∉ visited))).length) with hlt | hge
      · exact Prod.Lex.left _ _ hlt
      · have hle := length_filter_mono (mapKeys adjList)
          (fun x => decide (x ∉ c :: visited)) (fun x => decide (x ∉ visited))
          (fun x hx => by
            simp only [decide_eq_true_eq] at hx ⊢
            exact fun hmem => hx (List.mem_cons_of_mem _ hmem))
        have heq : ((mapKeys adjList).filter (fun x => decide (x ∉ c :: visited))).length =
            ((mapKeys adjList).filter (fun x => decide (x ∉ visited))).length :=
          le_antisymm hle hge
        rw [heq, hnil]
        exact Prod.Lex.right _ (by simp [Nat.lt_succ_self])

namespace MemoryGraph

variable {K V E : Type} [DecidableEq K]

/-- The per-vertex neighbor keys pushed by `MemoryGraph.createsCycle`:
the in-edge index bucket, plus the out-edge bucket for undirected graphs. -/
def cycleNbrs (g : MemoryGraph K V E) : List (K × List K) :=
  (mapKeys g.inEdges ++ mapKeys g.outEdges).map
    (fun k =>
      (k, mapKeys (mapGetD g.inEdges k) ++
        (if !g.traits.IsDirected then mapKeys (mapGetD g.outEdges k) else [])))

/-- Embeds `MemoryGraph.createsCycle` (src/memory.go line 424): backwards DFS from
`source` through the in-edge index looking for `target`. -/
def createsCycle (g : MemoryGraph K V E) (source target : K) : Bool :=
  if source = target then true
  else searchBack g.cycleNbrs target [source] []

/-- Embeds `MemoryGraph.CreatesCycle` (src/memory.go line 414): the public locked
entry point; same result as `createsCycle`. -/
def CreatesCycle (g : MemoryGraph K V E) (source target : K) : Bool :=
  if source = target then true else g.createsCycle source target

/-- Embeds `MemoryGraph.AddEdge` (src/memory.go line 211). The edges-weighted trait
is promoted before any validation. -/
def AddEdge [Inhabited E] (g : MemoryGraph K V E) (sourceHash targetHash : K)
    (options : List (EdgeProperties E → EdgeProperties E)) :
    MemoryGraph K V E × Option (GraphError K V E) :=
  let e0 : Edge K E := ⟨sourceHash, targetHash, applyOpts EdgeProperties.zero options⟩
  let g1 :=
    if !g.traits.IsEdgesWeighted && decide (e0.properties.weight ≠ 0) then
      { g with traits := { g.traits with IsEdgesWeighted := true } }
    else g
  if !mapContains g1.vertices sourceHash then (g1, some (.vertexNotFound sourceHash))
  else if !mapContains g1.vertices targetHash then (g1, some (.vertexNotFound targetHash))
  else
    match g1.edge sourceHash targetHash with
    | some e => (g1, some (.edgeAlreadyExists e))
    | none =>
      if g1.traits.PreventCycles && g1.createsCycle sourceHash targetHash then
        (g1, some (.edgeCausesCycle sourceHash targetHash))
      else
        ({ g1 with
            outEdges := mapInsert2 g1.outEdges sourceHash targetHash e0
            inEdges := mapInsert2 g1.inEdges targetHash sourceHash e0
            edgeCount := g1.edgeCount + 1 }, none)

/-- Embeds `MemoryGraph.AddEdges` (src/memory.go line 266): validate every edge
against the untouched graph, then commit all of them (copying properties). -/
def AddEdges [Inhabited E] (g : MemoryGraph K V E) (edges : List (Edge K E)) :
    MemoryGraph K V E × Option (GraphError K V E) :=
  let validate : Option (GraphError K V E) :=
    edges.foldl
      (fun acc e =>
        match acc with
        | some err => some err
        | none =>
          if !mapContains g.vertices e.source then some (.vertexNotFound e.source)
          else if !mapContains g.vertices e.target then some (.vertexNotFound e.target)
          else
            match g.edge e.source e.target with
            | some existing => some (.edgeAlreadyExists existing)
            | none =>
              if g.traits.PreventCycles && g.createsCycle e.source e.target then
                some (.edgeCausesCycle e.source e.target)
              else none)
      none
  match validate with
  | some err => (g, some err)
  | none =>
    edges.foldl
      (fun acc e =>
        let edge : Edge K E := ⟨e.source, e.target, EdgeCopyProperties e.properties .zero⟩
        { acc with
            outEdges := mapInsert2 acc.outEdges e.source e.target edge
            inEdges := mapInsert2 acc.inEdges e.target e.source edge
            edgeCount := acc.edgeCount + 1 })
      g |> (fun g2 => (g2, none))

/-- Embeds `MemoryGraph.AdjacencyMap` (src/memory.go line 351): an entry per vertex,
then every stored edge under its stored source (both directions for
undirected graphs). -/
def AdjacencyMap (g : MemoryGraph K V E) : List (K × List (K × Edge K E)) :=
  let init : List (K × List (K × Edge K E)) := g.vertices.map (fun p => (p.1, []))
  g.outEdges.foldl
    (fun adj bucket =>
      bucket.2.foldl
        (fun adj te =>
          let adj1 := mapInsert2 adj bucket.1 te.1 ⟨bucket.1, te.1, te.2.properties⟩
          if !g.traits.IsDirected then
            mapInsert2 adj1 te.1 bucket.1 ⟨te.1, bucket.1, te.2.properties⟩
          else adj1)
        adj)
    init

/-- Embeds `MemoryGraph.PredecessorMap` (src/memory.go line 380): an entry per
vertex, then every stored edge under its stored target. -/
def PredecessorMap (g : MemoryGraph K V E) : List (K × List (K × Edge K E)) :=
  let init : List (K × List (K × Edge K E)) := g.vertices.map (fun p => (p.1, []))
  g.outEdges.foldl
    (fun pred bucket =>
      bucket.2.foldl
        (fun pred te =>
          let pred1 := mapInsert2 pred te.1 bucket.1 ⟨bucket.1, te.1, te.2.properties⟩
          if !g.traits.IsDirected then
            mapInsert2 pred1 bucket.1 te.1 ⟨te.1, bucket.1, te.2.properties⟩
          else pred1)
        pred)
    init

/-- Embeds `MemoryGraph.DownstreamNeighbors` (src/memory.go line 460): the out-edge
bucket of `hash`, plus (undirected only) the in-edge bucket. -/
def DownstreamNeighbors (g : MemoryGraph K V E) (hash : K) : List (Edge K E) :=
  (mapGetD g.outEdges hash).map Prod.snd ++
    (if !g.traits.IsDirected then (mapGetD g.inEdges hash).map Prod.snd else [])

/-- Embeds `MemoryGraph.UpstreamNeighbors` (src/memory.go line 484). -/
def UpstreamNeighbors (g : MemoryGraph K V E) (hash : K) : List (Edge K E) :=
  (mapGetD g.inEdges hash).map Prod.snd ++
    (if !g.traits.IsDirected then (mapGetD g.outEdges hash).map Prod.snd else [])

end MemoryGraph

/-- The generic fallback `DownstreamNeighbors` (src/neighbors.go line 12),
instantiated at the in-memory store: it materialises the adjacency map and
yields the edges of every entry of the whole map. Note that the source
never uses the `hash` parameter inside the loop. -/
def DownstreamNeighbors {K V E : Type} [DecidableEq K]
    (g : MemoryGraph K V E) (_hash : K) : List (Edge K E) :=
  (g.AdjacencyMap.map (fun p => p.2.map Prod.snd)).flatten

/-- The generic fallback `UpstreamNeighbors` (src/neighbors.go line 38),
instantiated at the in-memory store. As with `DownstreamNeighbors`, the
source never uses the `hash` parameter inside the loop. -/
def UpstreamNeighbors {K V E : Type} [DecidableEq K]
    (g : MemoryGraph K V E) (_hash : K) : List (Edge K E) :=
  (g.PredecessorMap.map (fun p => p.2.map Prod.snd)).flatten

/-- Insert into a sorted list, used to model `sort.Slice` (whose output is
some ordering of the input consistent with the comparator; the embedding
picks insertion sort). -/
def insertSorted {K : Type} (f : K → K → Bool) (x : K) : List K → List K
  | [] => [x]
  | y :: ys => if f x y then x :: y :: ys else y :: insertSorted f x ys

/-- Insertion sort by a boolean comparator. -/
def insSort {K : Type} (f : K → K → Bool) : List K → List K
  | [] => []
  | x :: xs => insertSorted f x (insSort f xs)

/-- Sorting step of `StableTopologicalSort`: applied only when a
comparator is supplied. -/
def sortOpt {K : Type} (less : Option (K → K → Bool)) (l : List K) : List K :=
  match less with
  | none => l
  | some f => insSort f l

/-- One pass of `delete(predecessors, currentVertex)` over every remaining
entry of the predecessor map (src/dag.go line 107). -/
def pmDelete {K E : Type} [DecidableEq K]
    (pm : List (K × List (K × Edge K E))) (c : K) : List (K × List (K × Edge K E)) :=
  pm.map (fun p => (p.1, p.2.filter (fun q => decide (q.1 ≠ c))))

/-- An entry all of whose predecessors are gone and whose key is unseen
moves to the frontier (src/dag.go lines 109-117). -/
def entryReady {K E : Type} [DecidableEq K] (seen : List K)
    (p : K × List (K × Edge K E)) : Bool :=
  p.2.isEmpty && decide (p.1 ∉ seen)

/-- The new frontier produced by emitting `c`. -/
def frontierOf {K E : Type} [DecidableEq K]
    (pm : List (K × List (K × Edge K E))) (c : K) (seen : List K) : List K :=
  mapKeys ((pmDelete pm c).filter (entryReady seen))

/-- The remaining predecessor map after emitting `c`. -/
def pmNext {K E : Type} [DecidableEq K]
    (pm : List (K × List (K × Edge K E))) (c : K) (seen : List K) :
    List (K × List (K × Edge K E)) :=
  (pmDelete pm c).filter (fun p => !entryReady seen p)

/-- Embeds `len(predecessorMap[k])` as read by the cycle-fallthrough comparator. -/
def predCount {K E : Type} [DecidableEq K]
    (pm : List (K × List (K × Edge K E))) (k : K) : Nat :=
  (mapGetD pm k).length

/-- The comparator of the cycle fallthrough (src/dag.go lines 76-92):
fewest remaining predecessors first (most when the map is inverted), ties
broken by `less` or by keeping the earlier element. -/
def stuckLT {K E : Type} [DecidableEq K] (pm : List (K × List (K × Edge K E)))
    (less : Option (K → K → Bool)) (inverted : Bool) (a b : K) : Bool :=
  if predCount pm a ≠ predCount pm b then
    (if inverted then decide (predCount pm a > predCount pm b)
     else decide (predCount pm a < predCount pm b))
  else
    match less with
    | some l => l a b
    | none => false

/-- Embeds `remaining[0]` after the fallthrough sort: the first entry attaining the
minimum of the `stuckLT` comparator. -/
def pickStuck {K E : Type} [DecidableEq K] (p0 : K × List (K × Edge K E))
    (rest0 : List (K × List (K × Edge K E))) (pm : List (K × List (K × Edge K E)))
    (less : Option (K → K → Bool)) (inverted : Bool) : K :=
  (rest0.foldl (fun best q => if stuckLT pm less inverted q.1 best.1 then q else best) p0).1

theorem foldl_choice_mem {α : Type} (f : α → α → Bool) (l : List α) (b : α) :
    l.foldl (fun best q => if f q best then q else best) b ∈ b :: l := by
  induction l generalizing b with
  | nil => simp
  | cons x t ih =>
    simp only [List.foldl_cons]
    by_cases h : f x b = true
    · rw [if_pos h]
      rcases List.mem_cons.mp (ih x) with h2 | h2
      · rw [h2]; simp
      · simp [h2]
    · rw [if_neg h]
      rcases List.mem_cons.mp (ih b) with h2 | h2
      · rw [h2]; simp
      · simp [h2]

theorem length_filter_partition {α : Type} (l : List α) (p : α → Bool) :
    (l.filter p).length + (l.filter (fun x => !p x)).length = l.length := by
  induction l with
  | nil => simp
  | cons x t ih =>
    by_cases h : p x = true
    · rw [List.filter_cons_of_pos h, List.filter_cons_of_neg (by simp [h])]
      simp only [List.length_cons]
      omega
    · rw [List.filter_cons_of_neg (by simpa using h),
        List.filter_cons_of_pos (by simp [Bool.eq_false_iff.mpr h])]
      simp only [List.length_cons]
      omega

theorem insertSorted_length {K : Type} (f : K → K → Bool) (x : K) (l : List K) :
    (insertSorted f x l).length = l.length + 1 := by
  induction l with
  | nil => rfl
  | cons y ys ih =>
    rw [insertSorted]
    by_cases h : f x y = true
    · simp [h]
    · simp [h, ih]

theorem insSort_length {K : Type} (f : K → K → Bool) (l : List K) :
    (insSort f l).length = l.length := by
  induction l with
  | nil => rfl
  | cons x xs ih => rw [insSort, insertSorted_length, ih]; rfl

theorem sortOpt_length {K : Type} (less : Option (K → K → Bool)) (l : List K) :
    (sortOpt less l).length = l.length := by
  cases less with
  | none => rfl
  | some f => exact insSort_length f l

theorem pmNext_frontier_length {K E : Type} [DecidableEq K]
    (pm : List (K × List (K × Edge K E))) (c : K) (seen : List K) :
    (pmNext pm c seen).length + (frontierOf pm c seen).length = pm.length := by
  have h := length_filter_partition (pmDelete pm c) (entryReady seen)
  have hd : (pmDelete pm c).length = pm.length := by rw [pmDelete, List.length_map]
  rw [pmNext, frontierOf, mapKeys, List.length_map]
  omega

theorem mapDelete_length_lt {K A : Type} [DecidableEq K]
    (m : List (K × A)) (c : K) (hc : c ∈ mapKeys m) :
    (mapDelete m c).length < m.length := by
  rw [mapDelete]
  rcases List.mem_map.mp hc with ⟨p, hp, hfst⟩
  calc (m.filter (fun p => decide (p.1 ≠ c))).length
      < m.length := by
        apply List.length_filter_lt_length_iff_exists.mpr
        exact ⟨p, hp, by simp [hfst]⟩

/-- The emission loop of `StableTopologicalSort` (src/dag.go lines 65-133):
pop the queue head and emit it; move every entry that loses its last
predecessor to the (optionally sorted) frontier; when the queue empties
while the map is non-empty, emit the least-blocked remaining vertex
instead of reporting a cycle. -/
def kahnLoop {K E : Type} [DecidableEq K] (less : Option (K → K → Bool)) (inverted : Bool) :
    List (K × List (K × Edge K E)) → List K → List K → List K
  | pm, c :: rest, seen =>
    c :: kahnLoop less inverted (pmNext pm c seen)
        (rest ++ sortOpt less (frontierOf pm c seen)) (seen ++ frontierOf pm c seen)
  | pm, [], seen =>
    match pm with
    | [] => []
    | p0 :: rest0 =>
      let c := pickStuck p0 rest0 (p0 :: rest0) less inverted
      let pm0 := mapDelete (p0 :: rest0) c
      c :: kahnLoop less inverted (pmNext pm0 c (seen ++ [c]))
          (sortOpt less (frontierOf pm0 c (seen ++ [c])))
          ((seen ++ [c]) ++ frontierOf pm0 c (seen ++ [c]))
termination_by pm queue _ => pm.length + queue.length
decreasing_by
  · have h := pmNext_frontier_length pm c seen
    have h2 := sortOpt_length less (frontierOf pm c seen)
    simp only [List.length_append, List.length_cons, h2]
    omega
  · set c0 := pickStuck p0 rest0 (p0 :: rest0) less inverted with hc0
    have hmem : c0 ∈ mapKeys (p0 :: rest0) := by
      rw [hc0, pickStuck]
      exact List.mem_map.mpr ⟨_, foldl_choice_mem _ rest0 p0, rfl⟩
    have hdel := mapDelete_length_lt (p0 :: rest0) c0 hmem
    have h := pmNext_frontier_length (mapDelete (p0 :: rest0) c0) c0 (seen ++ [c0])
    have h2 := sortOpt_length less (frontierOf (mapDelete (p0 :: rest0) c0) c0 (seen ++ [c0]))
    have ha : (p0 :: rest0).length = rest0.length + 1 := List.length_cons p0 rest0
    have hf : ([] : List K).length = 0 := rfl
    omega

/-- The reversed-map heuristic of `StableTopologicalSort` (src/dag.go lines
44-51): sample the first stored edge of the first non-empty entry and test
whether its recorded target equals its inner key. -/
def isInvertedOf {K E : Type} [DecidableEq K]
    (pm : List (K × List (K × Edge K E))) : Bool :=
  match pm.find? (fun p => !p.2.isEmpty) with
  | some p =>
    match p.2 with
    | (t, e) :: _ => decide (e.target = t)
    | [] => false
  | none => false

/-- Embeds `StableTopologicalSort` (src/dag.go line 31): seed the queue with the
zero-predecessor keys (sorted when a comparator is supplied, inverted when
the map looks successor-keyed), then run the emission loop. The Go
function is an iterator over `K` only; the embedding returns the full
emitted sequence. -/
def StableTopologicalSort {K E : Type} [DecidableEq K]
    (pm : List (K × List (K × Edge K E))) (less : Option (K → K → Bool)) : List K :=
  let queue0 := mapKeys (pm.filter (fun p => p.2.isEmpty))
  let pm1 := pm.filter (fun p => !p.2.isEmpty)
  let inverted := isInvertedOf pm1
  let effLess : Option (K → K → Bool) :=
    match less with
    | none => none
    | some l => some (if inverted then (fun a b => l b a) else l)
  kahnLoop effLess inverted pm1 (sortOpt effLess queue0) queue0

/-- Embeds `TopologicalSort` (src/dag.go line 19). -/
def TopologicalSort {K E : Type} [DecidableEq K]
    (pm : List (K × List (K × Edge K E))) : List K :=
  StableTopologicalSort pm none

/-- Neighbor keys of each predecessor-map entry, as pushed by the generic
`CreatesCycle` DFS. -/
def predNbrs {K E : Type} (pred : List (K × List (K × Edge K E))) : List (K × List K) :=
  pred.map (fun p => (p.1, mapKeys p.2))

/-- The generic `CreatesCycle` (src/unnamed/part_009 line 72), instantiated
at the in-memory store: materialise the predecessor map, then DFS backwards
from `source` looking for `target`. -/
def CreatesCycle {K V E : Type} [DecidableEq K]
    (g : MemoryGraph K V E) (source target : K) : Bool :=
  if source = target then true
  else searchBack (predNbrs g.PredecessorMap) target [source] []

/-- Error outcomes of the shortest-path machinery (src/unnamed/part_009):
`ErrTargetNotReachable`, the negative-cycle error, failures fetching a
vertex while weighting, and exhaustion of the embedding's fuel (which a
terminating Go run never hits). -/
inductive PathError where
  | targetNotReachable
  | negativeCycle
  | vertexFetchFailed
  | fuelExhausted
deriving Repr, DecidableEq

/-- Embeds `shortestPathResult.ShortestPath` (src/unnamed/part_009 line 153): walk
the best-predecessor chain from `target` back to `source` and return the
path in forward order. Fuel bounds the walk; a `prev` chain produced by a
terminating Go run reaches `source` within `prev.length` steps. -/
def walkPrev {K : Type} [DecidableEq K] (source : K) (prev : List (K × K)) :
    K → Nat → List K → Except PathError (List K)
  | _, 0, _ => .error .fuelExhausted
  | current, fuel + 1, acc =>
    if current = source then .ok (current :: acc)
    else
      match mapLookup prev current with
      | none => .error .targetNotReachable
      | some next => walkPrev source prev next fuel (current :: acc)

/-- The per-edge weight of a relaxation (src/unnamed/part_009 lines
277-288): the stored edge weight when the graph is edge-weighted, else 1;
plus the destination vertex's weight when vertex-weighted. -/
def relaxWeight {K V E : Type} [DecidableEq K] (g : MemoryGraph K V E)
    (adj : K) (e : Edge K E) : Except PathError ℤ :=
  let w := if g.traits.IsEdgesWeighted then e.properties.weight else 1
  if g.traits.IsVerticesWeighted then
    match mapLookup g.vertices adj with
    | none => .error .vertexFetchFailed
    | some v => .ok (w + v.properties.weight)
  else .ok w

/-- Embeds `math.MaxInt32`, the initial Bellman-Ford distance. -/
def maxInt32 : ℤ := 2147483647

/-- One full relaxation pass of `BellmanFordShortestPath` over every key in
order and every adjacent edge. State is `(dist, bestPredecessors)`; absent
`dist` entries read as the Go zero value 0. -/
def bfPass {K V E : Type} [DecidableEq K] (g : MemoryGraph K V E)
    (adjacencyMap : List (K × List (K × Edge K E))) (keys : List K)
    (st : List (K × ℤ) × List (K × K)) :
    Except PathError (List (K × ℤ) × List (K × K)) :=
  keys.foldlM
    (fun st key =>
      (mapGetD adjacencyMap key).foldlM
        (fun st adjE => do
          let w ← relaxWeight g adjE.1 adjE.2
          let newDist := (mapLookup st.1 key).getD 0 + w
          let tgt := adjE.2.target
          if newDist < (mapLookup st.1 tgt).getD 0 then
            pure (mapInsert st.1 tgt newDist, mapInsert st.2 tgt key)
          else pure st)
        st)
    st

/-- The final negative-cycle detection pass of `BellmanFordShortestPath`. -/
def bfNegCheck {K V E : Type} [DecidableEq K] (g : MemoryGraph K V E)
    (adjacencyMap : List (K × List (K × Edge K E))) (dist : List (K × ℤ)) :
    Except PathError Unit :=
  adjacencyMap.foldlM
    (fun _ bucket =>
      bucket.2.foldlM
        (fun _ adjE => do
          let w ← relaxWeight g adjE.1 adjE.2
          if (mapLookup dist adjE.2.source).getD 0 + w <
              (mapLookup dist adjE.2.target).getD 0 then
            Except.error PathError.negativeCycle
          else pure ())
        ())
    ()

/-- Embeds `BellmanFordShortestPath` (src/unnamed/part_009 line 249): initialise
every adjacency key's distance to `math.MaxInt32` and the source to 0, run
`|V|-1` relaxation passes (keys sorted when a comparator is supplied),
detect negative cycles, and return the path-building closure. -/
def BellmanFordShortestPath {K V E : Type} [DecidableEq K] (g : MemoryGraph K V E)
    (source : K) (less : Option (K → K → Bool)) : K → Except PathError (List K) :=
  let adjacencyMap := g.AdjacencyMap
  let keys0 := mapKeys adjacencyMap
  let dist0 := mapInsert (keys0.foldl (fun d k => mapInsert d k maxInt32) []) source 0
  let keys1 := match less with | none => keys0 | some l => insSort l keys0
  let setup : Except PathError (List (K × ℤ) × List (K × K)) := do
    let st ← (List.range (adjacencyMap.length - 1)).foldlM
      (fun st _ => bfPass g adjacencyMap keys1 st) (dist0, [])
    bfNegCheck g adjacencyMap st.1
    pure st
  match setup with
  | .error e => fun _ => .error e
  | .ok st => fun target => walkPrev source st.2 target (st.2.length + 1) []

/-- Comparison on Dijkstra weights, where `none` models `math.Inf(1)`. -/
def wLtB : Option ℤ → Option ℤ → Bool
  | some a, some b => decide (a < b)
  | some _, none => true
  | none, _ => false

/-- Modelled from the spec: the min-priority queue consumed by
`DijkstraShortestPath` (`newPriorityQueue`, `Push`, `Pop`,
`UpdatePriority`) is not among the provided sources; the spec (section
4.7) calls for a classical min-priority queue, modelled here as a list of
key/priority pairs popped at a minimal priority. -/
def pqPopMin {K : Type} [DecidableEq K] (q : List (K × Option ℤ)) :
    Option ((K × Option ℤ) × List (K × Option ℤ)) :=
  match q with
  | [] => none
  | p :: rest =>
    let best := rest.foldl (fun b x => if wLtB x.2 b.2 then x else b) p
    some (best, (p :: rest).erase best)

/-- Priority update for present keys; preserves the queue's length. -/
def pqUpdate {K : Type} [DecidableEq K] (q : List (K × Option ℤ)) (k : K)
    (w : Option ℤ) : List (K × Option ℤ) :=
  q.map (fun p => if p.1 = k then (k, w) else p)

/-- The main loop of `DijkstraShortestPath` (src/unnamed/part_009 lines
205-235), fuelled by the initial queue length (each iteration pops one
entry and priority updates never change the length). -/
def dijkstraLoop {K V E : Type} [DecidableEq K] (g : MemoryGraph K V E)
    (adjacencyMap : List (K × List (K × Edge K E))) :
    Nat → List (K × Option ℤ) → List (K × Option ℤ) → List (K × K) →
    Except PathError (List (K × K))
  | 0, _, _, prev => pure prev
  | fuel + 1, queue, weights, prev =>
    match pqPopMin queue with
    | none => pure prev
    | some (entry, queue1) => do
      let vertex := entry.1
      let wv := (mapLookup weights vertex).getD (some 0)
      let hasInfiniteWeight := wv.isNone
      let st ← (mapGetD adjacencyMap vertex).foldlM
        (fun (st : List (K × Option ℤ) × List (K × Option ℤ) × List (K × K)) adjE => do
          let w0 ← relaxWeight g adjE.1 adjE.2
          let weight : Option ℤ := ((mapLookup st.2.1 vertex).getD (some 0)).map (· + w0)
          if wLtB weight ((mapLookup st.2.1 adjE.1).getD (some 0)) && !hasInfiniteWeight then
            pure (pqUpdate st.1 adjE.1 weight, mapInsert st.2.1 adjE.1 weight,
              mapInsert st.2.2 adjE.1 entry.1)
          else pure st)
        (queue1, weights, prev)
      dijkstraLoop g adjacencyMap fuel st.1 st.2.1 st.2.2

/-- Embeds `DijkstraShortestPath` (src/unnamed/part_009 line 177). -/
def DijkstraShortestPath {K V E : Type} [DecidableEq K] (g : MemoryGraph K V E)
    (source : K) : K → Except PathError (List K) :=
  let adjacencyMap := g.AdjacencyMap
  let weights0 : List (K × Option ℤ) := [(source, some 0)]
  let init := (mapKeys adjacencyMap).foldl
    (fun (st : List (K × Option ℤ) × List (K × Option ℤ)) hash =>
      let ws := if hash = source then st.2 else mapInsert st.2 hash none
      (st.1 ++ [(hash, (mapLookup ws hash).getD (some 0))], ws))
    ([], weights0)
  match dijkstraLoop g adjacencyMap init.1.length init.1 init.2 [] with
  | .error e => fun _ => .error e
  | .ok prev => fun target => walkPrev source prev target (prev.length + 1) []

/-- Embeds `ShortestPath` (src/unnamed/part_009 line 131): Bellman-Ford for
directed graphs, Dijkstra otherwise. -/
def ShortestPath {K V E : Type} [DecidableEq K] (g : MemoryGraph K V E)
    (source : K) : K → Except PathError (List K) :=
  if g.traits.IsDirected then BellmanFordShortestPath g source none
  else DijkstraShortestPath g source

/-- Embeds `buildLayer` of `AllPathsFromAdjacency` (src/unnamed/part_009 line
464): push `element` onto the main stack and push onto the vice stack the
frontier of neighbors not already on the main stack (the start and end
keys being admitted once more). Stacks keep their top at the list head. -/
def buildLayer {K E : Type} [DecidableEq K]
    (adj : List (K × List (K × Edge K E))) (start endv : K)
    (main : List K) (vice : List (List K)) (element : K) :
    List K × List (List K) :=
  let m1 := element :: main
  let newElements := (mapGetD adj element).foldl
    (fun st q =>
      let e := q.1
      let containsCount := m1.count e
      let contains := decide (0 < containsCount)
      if (contains && (decide (e ≠ start) || decide (e ≠ endv))) ||
          decide (containsCount > 1) then st
      else e :: st)
    []
  (m1, newElements :: vice)

/-- Embeds `buildStack` of `AllPathsFromAdjacency` (src/unnamed/part_009 line
485): repeatedly pop an element from the top frontier and build its layer
until the top frontier is empty. -/
def buildStackLoop {K E : Type} [DecidableEq K]
    (adj : List (K × List (K × Edge K E))) (start endv : K) :
    Nat → List K → List (List K) → List K × List (List K) × Option String
  | 0, m, v => (m, v, some "out of fuel")
  | fuel + 1, m, v =>
    match v with
    | [] => (m, v, none)
    | top :: restV =>
      match top with
      | [] => (m, top :: restV, none)
      | e :: topRest =>
        let built := buildLayer adj start endv m (topRest :: restV) e
        buildStackLoop adj start endv fuel built.1 built.2

/-- The consumer loop of `AllPathsFromAdjacency` (src/unnamed/part_009
lines 519-549): while the main stack is non-empty, either yield the
current path and remove a layer (when the top frontier is empty) or build
the stack further. Returns the yielded items and whether the loop ran to
completion within the fuel. -/
def allPathsOuter {K E : Type} [DecidableEq K]
    (adj : List (K × List (K × Edge K E))) (start endv : K) :
    Nat → List K → List (List K) → List (Except String (List K)) × Bool
  | 0, _, _ => ([], false)
  | fuel + 1, main, vice =>
    match main with
    | [] => ([], true)
    | v :: mainRest =>
      match vice with
      | [] => ([Except.error "empty stack"], false)
      | adjs :: viceRest =>
        if adjs.isEmpty then
          let emitted : List (Except String (List K)) :=
            if v = endv && decide (main.length > 1) then [.ok main.reverse] else []
          let r := allPathsOuter adj start endv fuel mainRest viceRest
          (emitted ++ r.1, r.2)
        else
          let b := buildStackLoop adj start endv fuel (v :: mainRest) (adjs :: viceRest)
          match b.2.2 with
          | some err =>
            let r := allPathsOuter adj start endv fuel b.1 b.2.1
            (.error err :: r.1, r.2)
          | none =>
            allPathsOuter adj start endv fuel b.1 b.2.1

/-- Embeds `AllPathsFromAdjacency` (src/unnamed/part_009 line 439): build the
start layer and run the consumer loop. -/
def AllPathsFromAdjacency {K E : Type} [DecidableEq K]
    (adj : List (K × List (K × Edge K E))) (start endv : K) (fuel : Nat) :
    List (Except String (List K)) × Bool :=
  let init := buildLayer adj start endv [] [] start
  allPathsOuter adj start endv fuel init.1 init.2

/-- Embeds `MemoryGraph.AllPathsBetween` (src/memory.go line 530): run
`AllPathsFromAdjacency` directly over the out-edge index. -/
def MemoryGraph.AllPathsBetween {K V E : Type} [DecidableEq K]
    (g : MemoryGraph K V E) (start endv : K) (fuel : Nat) :
    List (Except String (List K)) × Bool :=
  AllPathsFromAdjacency g.outEdges start endv fuel

/-! ### Concrete instances used by the claims -/

/-- Add a vertex with a weight to a string-keyed graph, discarding the
error, as the scenario setups do. -/
def addVS (g : MemoryGraph String String Unit) (v : String) (w : ℤ) :
    MemoryGraph String String Unit :=
  (g.AddVertex v [VertexWeight w]).1

/-- Add an edge with a weight to a string-keyed graph, discarding the error. -/
def addES (g : MemoryGraph String String Unit) (s t : String) (w : ℤ) :
    MemoryGraph String String Unit :=
  (g.AddEdge s t [EdgeWeight w]).1

/-- Add an unweighted vertex to a nat-keyed graph, discarding the error. -/
def addVN (g : MemoryGraph Nat Nat Unit) (v : Nat) : MemoryGraph Nat Nat Unit :=
  (g.AddVertex v []).1

/-- Add an unweighted edge to a nat-keyed graph, discarding the error. -/
def addEN (g : MemoryGraph Nat Nat Unit) (s t : Nat) : MemoryGraph Nat Nat Unit :=
  (g.AddEdge s t []).1

/-- The directed weighted digraph of scenario B (spec section 8): vertices
A..G with weights A,B,C,D,F,G = 1 and E = 10, and the ten weighted edges. -/
def gScenarioB : MemoryGraph String String Unit :=
  let g : MemoryGraph String String Unit := .New id [Directed]
  let g := addVS g "A" 1
  let g := addVS g "B" 1
  let g := addVS g "C" 1
  let g := addVS g "D" 1
  let g := addVS g "E" 10
  let g := addVS g "F" 1
  let g := addVS g "G" 1
  let g := addES g "A" "C" 3
  let g := addES g "A" "F" 2
  let g := addES g "C" "D" 4
  let g := addES g "C" "E" 1
  let g := addES g "C" "F" 2
  let g := addES g "D" "B" 1
  let g := addES g "E" "B" 2
  let g := addES g "E" "F" 3
  let g := addES g "F" "G" 5
  let g := addES g "G" "B" 2
  g

/-- The 4-vertex digraph of scenario F: edges 0→1, 1→2, 2→3, 2→0, 3→0. -/
def gScenarioF : MemoryGraph Nat Nat Unit :=
  let g : MemoryGraph Nat Nat Unit := .New id [Directed]
  let g := addVN g 0
  let g := addVN g 1
  let g := addVN g 2
  let g := addVN g 3
  let g := addEN g 0 1
  let g := addEN g 1 2
  let g := addEN g 2 3
  let g := addEN g 2 0
  let g := addEN g 3 0
  g

/-- An undirected graph with vertices 1, 2 and the single edge (1,2),
stored under source 1. -/
def gUndirectedPair : MemoryGraph Nat Nat Unit :=
  addEN (addVN (addVN (.New id []) 1) 2) 1 2

/-- A graph holding the single vertex 1 (identity hashing). -/
def gSingleVertex : MemoryGraph Nat Nat Unit := addVN (.New id []) 1

/-- A directed two-edge chain 1→2→3. -/
def gChain : MemoryGraph Nat Nat Unit :=
  let g : MemoryGraph Nat Nat Unit := .New id [Directed]
  let g := addVN g 1
  let g := addVN g 2
  let g := addVN g 3
  let g := addEN g 1 2
  addEN g 2 3

/-- A predecessor map holding the two-cycle 1→2→1. -/
def pmCycle : List (Nat × List (Nat × Edge Nat Unit)) :=
  [(1, [(2, ⟨2, 1, ⟨[], 0, ()⟩⟩)]), (2, [(1, ⟨1, 2, ⟨[], 0, ()⟩⟩)])]

/-- A predecessor-map inner entry recording the edge `u → v`. -/
def pmEdge (u v : Nat) : Nat × Edge Nat Unit := (u, ⟨u, v, ⟨[], 0, ()⟩⟩)

/-- The predecessor map of scenario C (spec section 8): vertices 1..5 with
edges 1→2, 1→3, 2→3, 2→4, 2→5, 3→4, 4→5. -/
def pmScenarioC : List (Nat × List (Nat × Edge Nat Unit)) :=
  [(1, []), (2, [pmEdge 1 2]), (3, [pmEdge 1 3, pmEdge 2 3]),
   (4, [pmEdge 2 4, pmEdge 3 4]), (5, [pmEdge 2 5, pmEdge 4 5])]

/-! ### Claims settled by direct evaluation -/

/-- C1: the claim states that `RemoveVertex(k)` fails with `VertexHasEdges`
whenever any stored edge references `k`, for directed and undirected
graphs alike. The code counts only the out-edge bucket for undirected
graphs, so removing the stored target of an undirected edge succeeds and
leaves behind an edge whose endpoint no longer exists: on the undirected
graph with vertices 1, 2 and edge (1,2), `RemoveVertex 2` returns no
error, deletes vertex 2, and edge (1,2) is still stored. -/
theorem removeVertex_undirected_misses_incoming_edge :
    (gUndirectedPair.RemoveVertex 2).2 = none ∧
    mapLookup (gUndirectedPair.RemoveVertex 2).1.vertices 2 = none ∧
    (gUndirectedPair.RemoveVertex 2).1.edge 1 2 = some ⟨1, 2, ⟨[], 0, ()⟩⟩ := by
  refine ⟨by decide, by decide, by decide⟩

/-- C2: the claim states that a key-changing `UpdateVertex` fails with
`UpdateChangedKey` and leaves the stored vertex unchanged. The options are
applied to the live vertex through its pointer before the key check, so
the failed call does return `UpdateChangedKey` but the stored vertex keeps
the mutated value: with identity hashing, updating vertex 1's value to 2
errs yet `Vertex(1)` afterwards holds value 2. -/
theorem updateVertex_mutation_persists_on_changed_key :
    (gSingleVertex.UpdateVertex 1 [fun v => { v with value := 2 }]).2 =
      some (.updateChangedKey 1 2) ∧
    mapLookup (gSingleVertex.UpdateVertex 1
      [fun v => { v with value := 2 }]).1.vertices 1 = some ⟨2, .zero⟩ := by
  refine ⟨by decide, by decide⟩

/-- C3: the claim states that the generic fallback `DownstreamNeighbors(k)`
yields only edges with source `k` and `UpstreamNeighbors(k)` only edges
with target `k`. The generic fallbacks iterate the whole adjacency or
predecessor map and never consult `k`: on the chain 1→2→3, the generic
`DownstreamNeighbors 1` yields the edge (2,3) whose source is not 1, and
the generic `UpstreamNeighbors 3` yields the edge (1,2) whose target is
not 3. (The store's specialised implementations filter correctly.) -/
theorem genericNeighbors_ignore_the_vertex :
    ((DownstreamNeighbors gChain 1).map (fun e => (e.source, e.target)) =
      [(1, 2), (2, 3)] ∧
     (UpstreamNeighbors gChain 3).map (fun e => (e.source, e.target)) =
      [(1, 2), (2, 3)]) ∧
    ((gChain.DownstreamNeighbors 1).map (fun e => (e.source, e.target)) = [(1, 2)] ∧
     (gChain.UpstreamNeighbors 3).map (fun e => (e.source, e.target)) = [(2, 3)]) := by
  refine ⟨⟨by decide, by decide⟩, by decide, by decide⟩

/-- C5 counterexample: the claim states that on a cyclic predecessor map
the output ends with a cycle-detected error item and no further keys are
emitted once the queue empties. `TopologicalSort` yields bare keys (its
iterator has no error channel) and on the two-cycle 1→2→1 it emits both
keys. -/
theorem topologicalSort_emits_keys_on_cycle :
    TopologicalSort pmCycle = [1, 2] := by
  simp [TopologicalSort, StableTopologicalSort, pmCycle, kahnLoop, isInvertedOf, mapKeys,
    pickStuck, stuckLT, predCount, mapGetD, mapLookup, mapDelete, pmNext, frontierOf,
    pmDelete, entryReady, sortOpt]

/-- C6: the claim states that a successful `AddVertices` stores each given
vertex with its value and its properties. The validation pass rebuilds
each pending vertex from its value alone, so the commit pass copies zeroed
properties: adding a vertex with weight 5 and an attribute succeeds but
stores it with empty attributes and weight 0. -/
theorem addVertices_drops_properties :
    ((MemoryGraph.New (E := Unit) id []).AddVertices
        [⟨1, ⟨[("color", "red")], 5⟩⟩]).2 = none ∧
    mapLookup ((MemoryGraph.New (E := Unit) id []).AddVertices
        [⟨(1 : Nat), ⟨[("color", "red")], 5⟩⟩]).1.vertices 1 =
      some ⟨1, ⟨[], 0⟩⟩ := by
  refine ⟨by decide, by decide⟩

/-- C7: on the weighted digraph of scenario B (edge weights as given,
vertex weights A..G = 1 except E = 10), the `ShortestPath` closure from A,
which delegates to Bellman-Ford because the graph is directed and charges
edge cost plus destination-vertex weight on every relaxation, returns the
path A, C, D, B for target B. -/
theorem shortestPath_scenarioB_path :
    (ShortestPath gScenarioB "A") "B" = .ok ["A", "C", "D", "B"] ∧
    gScenarioB.traits.IsVerticesWeighted = true ∧
    gScenarioB.traits.IsEdgesWeighted = true := by
  refine ⟨rfl, by decide, by decide⟩

/-- C9: on the digraph 0→1, 1→2, 2→3, 2→0, 3→0, `AllPathsBetween` from 0
to 0 yields exactly the paths [0,1,2,0] and [0,1,2,3,0] (in the
embedding's order), each once, with no error items, and the enumeration
runs to completion. -/
theorem allPathsBetween_scenarioF :
    gScenarioF.AllPathsBetween 0 0 200 =
      ([.ok [0, 1, 2, 0], .ok [0, 1, 2, 3, 0]], true) := rfl

/-- Every outcome of `AddVertex` carries the traits computed by the
weight-promotion step that runs before any validation. -/
theorem addVertex_traits_flag {K V E : Type} [DecidableEq K]
    (g : MemoryGraph K V E) (value : V)
    (vopts : List (VertexProperties → VertexProperties))
    (hvw : (applyOpts VertexProperties.zero vopts).weight ≠ 0) :
    (g.AddVertex value vopts).1.traits.IsVerticesWeighted = true := by
  unfold MemoryGraph.AddVertex
  rcases hv : g.traits.IsVerticesWeighted with _ | _
  · simp only [hv, Bool.not_false, Bool.true_and, decide_eq_true hvw, if_true]
    repeat' split
    all_goals rfl
  · simp only [hv, Bool.not_true, Bool.false_and, Bool.false_eq_true, if_false]
    repeat' split
    all_goals exact hv

/-- Every outcome of `AddEdge` carries the traits computed by the
weight-promotion step that runs before any validation. -/
theorem addEdge_traits_flag {K V E : Type} [DecidableEq K] [Inhabited E]
    (g : MemoryGraph K V E) (s t : K)
    (eopts : List (EdgeProperties E → EdgeProperties E))
    (hew : (applyOpts EdgeProperties.zero eopts).weight ≠ 0) :
    (g.AddEdge s t eopts).1.traits.IsEdgesWeighted = true := by
  unfold MemoryGraph.AddEdge
  rcases hv : g.traits.IsEdgesWeighted with _ | _
  · simp only [hv, Bool.not_false, Bool.true_and, decide_eq_true hew, if_true]
    repeat' split
    all_goals rfl
  · simp only [hv, Bool.not_true, Bool.false_and, Bool.false_eq_true, if_false]
    repeat' split
    all_goals exact hv

/-- C10: when the supplied options set a non-zero weight, a failed
`AddVertex` (resp. `AddEdge`) still leaves `IsVerticesWeighted` (resp.
`IsEdgesWeighted`) set to true in the resulting graph, because the traits
are promoted before any validation runs. -/
theorem add_failure_still_promotes_weighted_traits {K V E : Type} [DecidableEq K]
    [Inhabited E] (g : MemoryGraph K V E) (value : V)
    (vopts : List (VertexProperties → VertexProperties))
    (s t : K) (eopts : List (EdgeProperties E → EdgeProperties E))
    (hvw : (applyOpts VertexProperties.zero vopts).weight ≠ 0)
    (hew : (applyOpts EdgeProperties.zero eopts).weight ≠ 0) :
    (∀ err, (g.AddVertex value vopts).2 = some err →
      (g.AddVertex value vopts).1.traits.IsVerticesWeighted = true) ∧
    (∀ err, (g.AddEdge s t eopts).2 = some err →
      (g.AddEdge s t eopts).1.traits.IsEdgesWeighted = true) :=
  ⟨fun _ _ => addVertex_traits_flag g value vopts hvw,
   fun _ _ => addEdge_traits_flag g s t eopts hew⟩

/-- C10 witness: on a graph already holding vertex 1, `AddVertex 1` with
weight 5 fails with `VertexAlreadyExists` yet sets the vertices-weighted
trait, and `AddEdge 1 2` with weight 3 fails with `VertexNotFound` yet
sets the edges-weighted trait. -/
theorem add_failure_still_promotes_weighted_traits_witness :
    ((applyOpts VertexProperties.zero [VertexWeight 5]).weight ≠ 0) ∧
    ((applyOpts EdgeProperties.zero [EdgeWeight (E := Unit) 3]).weight ≠ 0) ∧
    (gSingleVertex.AddVertex 1 [VertexWeight 5]).2 =
      some (.vertexAlreadyExists 1 ⟨1, .zero⟩) ∧
    (gSingleVertex.AddEdge 1 2 [EdgeWeight 3]).2 = some (.vertexNotFound 2) ∧
    (gSingleVertex.AddVertex 1 [VertexWeight 5]).1.traits.IsVerticesWeighted = true ∧
    (gSingleVertex.AddEdge 1 2 [EdgeWeight 3]).1.traits.IsEdgesWeighted = true := by
  refine ⟨by decide, by decide, by decide, by decide, ?_, ?_⟩
  · exact (add_failure_still_promotes_weighted_traits gSingleVertex 1 [VertexWeight 5]
      1 2 [EdgeWeight 3] (by decide) (by decide)).1
      (.vertexAlreadyExists 1 ⟨1, .zero⟩) (by decide)
  · exact (add_failure_still_promotes_weighted_traits gSingleVertex 1 [VertexWeight 5]
      1 2 [EdgeWeight 3] (by decide) (by decide)).2
      (.vertexNotFound 2) (by decide)

/-! ### Permutation facts about the topological-sort loop -/

theorem insertSorted_perm {K : Type} (f : K → K → Bool) (x : K) (l : List K) :
    (insertSorted f x l).Perm (x :: l) := by
  induction l with
  | nil => exact List.Perm.refl _
  | cons y ys ih =>
    rw [insertSorted]
    by_cases h : f x y = true
    · rw [if_pos h]
    · rw [if_neg h]
      exact (ih.cons y).trans (List.Perm.swap x y ys)

theorem insSort_perm {K : Type} (f : K → K → Bool) (l : List K) :
    (insSort f l).Perm l := by
  induction l with
  | nil => exact List.Perm.refl _
  | cons x xs ih => exact (insertSorted_perm f x (insSort f xs)).trans (ih.cons x)

theorem sortOpt_perm {K : Type} (less : Option (K → K → Bool)) (l : List K) :
    (sortOpt less l).Perm l := by
  cases less with
  | none => exact List.Perm.refl _
  | some f => exact insSort_perm f l

theorem mem_sortOpt {K : Type} {less : Option (K → K → Bool)} {l : List K} {x : K} :
    x ∈ sortOpt less l ↔ x ∈ l :=
  (sortOpt_perm less l).mem_iff

theorem mapKeys_pmDelete {K E : Type} [DecidableEq K]
    (pm : List (K × List (K × Edge K E))) (c : K) :
    mapKeys (pmDelete pm c) = mapKeys pm := by
  rw [mapKeys, pmDelete, List.map_map]
  rfl

/-- Keys of the two filter halves of an association list are a permutation
of its keys. -/
theorem filterKeys_append_perm {K A : Type} (l : List (K × A)) (p : K × A → Bool) :
    (mapKeys (l.filter p) ++ mapKeys (l.filter (fun e => !p e))).Perm (mapKeys l) := by
  rw [mapKeys, mapKeys, mapKeys, ← List.map_append]
  exact (List.filter_append_perm p l).map Prod.fst

/-- In an association list with nodup keys, two entries sharing a key are
the same entry. -/
theorem nodup_keys_eq_of_fst_eq {K A : Type} (l : List (K × A))
    (hnd : (mapKeys l).Nodup) {p q : K × A} (hp : p ∈ l) (hq : q ∈ l)
    (h : p.1 = q.1) : p = q := by
  induction l with
  | nil => cases hp
  | cons x t ih =>
    rw [mapKeys, List.map_cons, List.nodup_cons] at hnd
    rcases List.mem_cons.mp hp with rfl | hp2
    · rcases List.mem_cons.mp hq with rfl | hq2
      · rfl
      · exact absurd (List.mem_map.mpr ⟨q, hq2, h.symm⟩) hnd.1
    · rcases List.mem_cons.mp hq with rfl | hq2
      · exact absurd (List.mem_map.mpr ⟨p, hp2, h⟩) hnd.1
      · exact ih hnd.2 hp2 hq2

/-- With nodup keys, a key cannot appear among the keys of both filter
halves of an association list. -/
theorem filterKeys_disjoint {K A : Type} (l : List (K × A)) (p : K × A → Bool)
    (hnd : (mapKeys l).Nodup) {x : K} (h1 : x ∈ mapKeys (l.filter p))
    (h2 : x ∈ mapKeys (l.filter (fun e => !p e))) : False := by
  rcases List.mem_map.mp h1 with ⟨e1, he1, hx1⟩
  rcases List.mem_map.mp h2 with ⟨e2, he2, hx2⟩
  rcases List.mem_filter.mp he1 with ⟨he1m, hp1⟩
  rcases List.mem_filter.mp he2 with ⟨he2m, hp2⟩
  have : e1 = e2 := nodup_keys_eq_of_fst_eq l hnd he1m he2m (hx1.trans hx2.symm)
  rw [← this, hp1] at hp2
  simp at hp2

theorem mapKeys_sublist_of_filter {K A : Type} (l : List (K × A)) (p : K × A → Bool) :
    (mapKeys (l.filter p)).Sublist (mapKeys l) :=
  (List.filter_sublist l).map Prod.fst

/-- Frontier and next-map keys of a sort step partition the current keys. -/
theorem frontier_append_pmNextKeys_perm {K E : Type} [DecidableEq K]
    (pm : List (K × List (K × Edge K E))) (c : K) (seen : List K) :
    (frontierOf pm c seen ++ mapKeys (pmNext pm c seen)).Perm (mapKeys pm) := by
  rw [frontierOf, pmNext]
  exact (filterKeys_append_perm (pmDelete pm c) (entryReady seen)).trans
    (by rw [mapKeys_pmDelete])

theorem frontier_pmNext_disjoint {K E : Type} [DecidableEq K]
    (pm : List (K × List (K × Edge K E))) (c : K) (seen : List K)
    (hnd : (mapKeys pm).Nodup) {x : K} (h1 : x ∈ frontierOf pm c seen)
    (h2 : x ∈ mapKeys (pmNext pm c seen)) : False := by
  rw [frontierOf] at h1
  rw [pmNext] at h2
  exact filterKeys_disjoint (pmDelete pm c) (entryReady seen)
    (by rw [mapKeys_pmDelete]; exact hnd) h1 h2

theorem pmNext_keys_nodup {K E : Type} [DecidableEq K]
    (pm : List (K × List (K × Edge K E))) (c : K) (seen : List K)
    (hnd : (mapKeys pm).Nodup) : (mapKeys (pmNext pm c seen)).Nodup := by
  refine List.Nodup.sublist ?_ (by rw [← mapKeys_pmDelete pm c] at hnd; exact hnd)
  exact mapKeys_sublist_of_filter _ _

theorem mapKeys_mem_of_pmNext {K E : Type} [DecidableEq K]
    {pm : List (K × List (K × Edge K E))} {c : K} {seen : List K} {x : K}
    (h : x ∈ mapKeys (pmNext pm c seen)) : x ∈ mapKeys pm := by
  rw [← mapKeys_pmDelete pm c]
  exact (mapKeys_sublist_of_filter _ _).mem h

theorem not_mem_mapKeys_mapDelete {K A : Type} [DecidableEq K]
    (m : List (K × A)) (c : K) : c ∉ mapKeys (mapDelete m c) := by
  intro h
  rcases List.mem_map.mp h with ⟨e, he, hx⟩
  rcases List.mem_filter.mp he with ⟨_, hp⟩
  rw [hx] at hp
  simp at hp

theorem mapKeys_mapDelete_sublist {K A : Type} [DecidableEq K]
    (m : List (K × A)) (c : K) : (mapKeys (mapDelete m c)).Sublist (mapKeys m) :=
  mapKeys_sublist_of_filter m _

/-- With nodup keys, deleting a present key removes exactly one entry. -/
theorem mapKeys_perm_cons_mapDelete {K A : Type} [DecidableEq K]
    (m : List (K × A)) (c : K) (hnd : (mapKeys m).Nodup) (hc : c ∈ mapKeys m) :
    (mapKeys m).Perm (c :: mapKeys (mapDelete m c)) := by
  induction m with
  | nil => cases hc
  | cons x t ih =>
    rw [mapKeys, List.map_cons, List.nodup_cons] at hnd
    by_cases hx : x.1 = c
    · have ht : mapDelete (x :: t) c = t := by
        rw [mapDelete, List.filter_cons_of_neg (by simp [hx])]
        apply List.filter_eq_self.mpr
        intro e he
        simp only [decide_eq_true_eq]
        intro hec
        exact hnd.1 (by rw [hx, ← hec]; exact List.mem_map.mpr ⟨e, he, rfl⟩)
      rw [ht]
      unfold mapKeys
      rw [List.map_cons, hx]
    · have hct : c ∈ mapKeys t := by
        rcases List.mem_map.mp hc with ⟨e, he, hx2⟩
        rcases List.mem_cons.mp he with rfl | he2
        · exact absurd hx2 hx
        · exact List.mem_map.mpr ⟨e, he2, hx2⟩
      have hdel : mapDelete (x :: t) c = x :: mapDelete t c := by
        rw [mapDelete, List.filter_cons_of_pos (by simp [hx])]
        rfl
      rw [hdel, mapKeys, mapKeys, List.map_cons, List.map_cons]
      exact ((ih hnd.2 hct).cons x.1).trans (List.Perm.swap c x.1 _)

/-- The emission loop yields a permutation of the queue plus the remaining
keys, for every predecessor map with nodup keys disjoint from the queue
(no acyclicity needed: the cycle fallthrough also empties the map). -/
theorem kahnLoop_perm {K E : Type} [DecidableEq K]
    (less : Option (K → K → Bool)) (inverted : Bool) :
    ∀ (pm : List (K × List (K × Edge K E))) (queue seen : List K),
      (mapKeys pm).Nodup → (∀ k ∈ mapKeys pm, k ∉ queue) →
      (kahnLoop less inverted pm queue seen).Perm (queue ++ mapKeys pm) := by
  intro pm queue seen
  induction pm, queue, seen using kahnLoop.induct less inverted with
  | case1 pm c rest seen ih =>
    intro hnd hq
    have hnd' := pmNext_keys_nodup pm c seen hnd
    have hq' : ∀ k ∈ mapKeys (pmNext pm c seen),
        k ∉ rest ++ sortOpt less (frontierOf pm c seen) := by
      intro k hk hmem
      rcases List.mem_append.mp hmem with hr | hs
      · exact hq k (mapKeys_mem_of_pmNext hk) (List.mem_cons_of_mem c hr)
      · exact frontier_pmNext_disjoint pm c seen hnd (mem_sortOpt.mp hs) hk
    have hperm := ih hnd' hq'
    rw [kahnLoop]
    refine (hperm.cons c).trans ?_
    have h1 : (rest ++ sortOpt less (frontierOf pm c seen) ++
        mapKeys (pmNext pm c seen)).Perm (rest ++ mapKeys pm) := by
      rw [List.append_assoc]
      refine List.Perm.append_left rest ?_
      refine List.Perm.trans ?_ (frontier_append_pmNextKeys_perm pm c seen)
      exact (sortOpt_perm less _).append_right _
    exact h1.cons c
  | case2 seen =>
    intro _ _
    rw [kahnLoop]
    exact List.Perm.refl _
  | case3 seen p0 rest0 c pm0 ih =>
    intro hnd _
    have hceq : c = pickStuck p0 rest0 (p0 :: rest0) less inverted := rfl
    have hc : c ∈ mapKeys (p0 :: rest0) := by
      rw [hceq, pickStuck]
      exact List.mem_map.mpr ⟨_, foldl_choice_mem _ rest0 p0, rfl⟩
    have hnd0 : (mapKeys pm0).Nodup :=
      List.Nodup.sublist (mapKeys_mapDelete_sublist _ c) hnd
    have hnd' := pmNext_keys_nodup pm0 c (seen ++ [c]) hnd0
    have hq' : ∀ k ∈ mapKeys (pmNext pm0 c (seen ++ [c])),
        k ∉ sortOpt less (frontierOf pm0 c (seen ++ [c])) := by
      intro k hk hs
      exact frontier_pmNext_disjoint pm0 c (seen ++ [c]) hnd0 (mem_sortOpt.mp hs) hk
    have hperm := ih hnd' hq'
    rw [kahnLoop]
    refine (hperm.cons c).trans ?_
    rw [List.nil_append]
    refine List.Perm.trans ?_ (mapKeys_perm_cons_mapDelete (p0 :: rest0) c hnd hc).symm
    refine List.Perm.cons c ?_
    refine List.Perm.trans ?_ (frontier_append_pmNextKeys_perm pm0 c (seen ++ [c]))
    exact (sortOpt_perm less _).append_right _

/-! ### Cycle extraction for the stuck case of the sort -/

/-- A chain's head is transitively related to every later member. -/
theorem chain'_transGen_of_mem {K : Type} {R : K → K → Prop} :
    ∀ (t : List K) (x b : K), List.Chain' R (x :: t) → b ∈ t →
      Relation.TransGen R x b := by
  intro t
  induction t with
  | nil =>
    intro x b _ hb
    cases hb
  | cons y t2 ih =>
    intro x b hch hb
    rw [List.chain'_cons] at hch
    rcases List.mem_cons.mp hb with rfl | hb2
    · exact Relation.TransGen.single hch.1
    · exact Relation.TransGen.head hch.1 (ih y b hch.2 hb2)

theorem chain'_sublist_transGen {K : Type} {R : K → K → Prop} :
    ∀ (l : List K) (a b : K), List.Chain' R l → [a, b].Sublist l →
      Relation.TransGen R a b := by
  intro l
  induction l with
  | nil =>
    intro a b _ hsl
    simp at hsl
  | cons x t ih =>
    intro a b hch hsl
    cases hsl with
    | cons _ h => exact ih a b hch.tail h
    | cons₂ _ h => exact chain'_transGen_of_mem t x b hch (List.singleton_sublist.mp h)

/-- A finite nonempty set in which every element has an `R`-predecessor
inside the set contains an `R`-cycle (build a backwards chain one longer
than the set and find a repeat). -/
theorem exists_transGen_cycle {K : Type} (R : K → K → Prop) (S : List K)
    (hne : S ≠ []) (h : ∀ v ∈ S, ∃ u, u ∈ S ∧ R u v) :
    ∃ x, Relation.TransGen R x x := by
  have hchain : ∀ n : Nat, ∃ path : List K, path.length = n + 1 ∧
      (∀ x ∈ path, x ∈ S) ∧ List.Chain' R path := by
    intro n
    induction n with
    | zero =>
      rcases hS : S with _ | ⟨v, S2⟩
      · exact absurd hS hne
      · exact ⟨[v], rfl, fun x hx => by
          rcases List.mem_singleton.mp hx with rfl
          exact List.mem_cons_self _ _, List.chain'_singleton v⟩
    | succ n ihn =>
      obtain ⟨path, hlen, hmem, hch⟩ := ihn
      rcases path with _ | ⟨x, t⟩
      · simp at hlen
      · obtain ⟨u, huS, hR⟩ := h x (hmem x (List.mem_cons_self x t))
        refine ⟨u :: x :: t, ?_, ?_, List.chain'_cons.mpr ⟨hR, hch⟩⟩
        · rw [List.length_cons, hlen]
        · intro y hy
          rcases List.mem_cons.mp hy with rfl | hy2
          · exact huS
          · exact hmem y hy2
  obtain ⟨path, hlen, hmem, hch⟩ := hchain S.length
  have hnotnodup : ¬ path.Nodup := by
    intro hnd
    have hle := (List.subperm_of_subset hnd (fun x hx => hmem x hx)).length_le
    omega
  obtain ⟨x, hdup⟩ := List.exists_duplicate_iff_not_nodup.mpr hnotnodup
  exact ⟨x, chain'_sublist_transGen path x x hch (List.duplicate_iff_sublist.mp hdup)⟩

theorem transGen_rank_lt {K : Type} {R : K → K → Prop} {rank : K → Nat}
    (h : ∀ u v, R u v → rank u < rank v) {a b : K}
    (ht : Relation.TransGen R a b) : rank a < rank b := by
  induction ht with
  | single h1 => exact h _ _ h1
  | tail _ h2 ih => exact lt_trans ih (h _ _ h2)

/-- The edge relation recorded by a predecessor map: `u → v` when `u` is
listed among `v`'s predecessors. -/
def pmEdgeRel {K E : Type} (pm : List (K × List (K × Edge K E))) (u v : K) : Prop :=
  ∃ p ∈ pm, p.1 = v ∧ u ∈ mapKeys p.2

/-- The emission loop respects every recorded edge when a rank function
certifies the map acyclic: the predecessor is emitted before its
successor. Invariants: nodup keys, keys disjoint from queue and seen,
entries non-empty, and recorded predecessors still in the map or in the
queue. -/
theorem kahnLoop_sorted {K E : Type} [DecidableEq K]
    (less : Option (K → K → Bool)) (inverted : Bool) (rank : K → Nat) :
    ∀ (pm : List (K × List (K × Edge K E))) (queue seen : List K),
      (mapKeys pm).Nodup →
      (∀ k ∈ mapKeys pm, k ∉ queue) →
      (∀ k ∈ mapKeys pm, k ∉ seen) →
      (∀ p ∈ pm, p.2 ≠ []) →
      (∀ p ∈ pm, ∀ q ∈ p.2, q.1 ∈ mapKeys pm ∨ q.1 ∈ queue) →
      (∀ p ∈ pm, ∀ q ∈ p.2, rank q.1 < rank p.1) →
      ∀ p ∈ pm, ∀ q ∈ p.2,
        [q.1, p.1].Sublist (kahnLoop less inverted pm queue seen) := by
  intro pm queue seen
  induction pm, queue, seen using kahnLoop.induct less inverted with
  | case1 pm c rest seen ih =>
    intro hnd hq hseen hne hclosed hrank p hp q hqmem
    rw [kahnLoop]
    have hnd' := pmNext_keys_nodup pm c seen hnd
    have hmemkeys : ∀ x, x ∈ mapKeys pm ↔
        (x ∈ frontierOf pm c seen ∨ x ∈ mapKeys (pmNext pm c seen)) := by
      intro x
      rw [← (frontier_append_pmNextKeys_perm pm c seen).mem_iff, List.mem_append]
    have hq' : ∀ k ∈ mapKeys (pmNext pm c seen),
        k ∉ rest ++ sortOpt less (frontierOf pm c seen) := by
      intro k hk hmem
      rcases List.mem_append.mp hmem with hr | hs
      · exact hq k (mapKeys_mem_of_pmNext hk) (List.mem_cons_of_mem c hr)
      · exact frontier_pmNext_disjoint pm c seen hnd (mem_sortOpt.mp hs) hk
    have hseen' : ∀ k ∈ mapKeys (pmNext pm c seen),
        k ∉ seen ++ frontierOf pm c seen := by
      intro k hk hmem
      rcases List.mem_append.mp hmem with hs | hf
      · exact hseen k (mapKeys_mem_of_pmNext hk) hs
      · exact frontier_pmNext_disjoint pm c seen hnd hf hk
    have hne' : ∀ p2 ∈ pmNext pm c seen, p2.2 ≠ [] := by
      intro p2 hp2 hempty
      rcases List.mem_filter.mp hp2 with ⟨hp2d, hready⟩
      rw [entryReady, hempty] at hready
      simp at hready
      have hkey : p2.1 ∈ mapKeys pm := by
        rw [← mapKeys_pmDelete pm c]
        exact List.mem_map.mpr ⟨p2, hp2d, rfl⟩
      exact hseen p2.1 hkey hready
    have hentry : ∀ p2 ∈ pmNext pm c seen, ∃ p3 ∈ pm,
        p2 = (p3.1, p3.2.filter (fun q2 => decide (q2.1 ≠ c))) := by
      intro p2 hp2
      rcases List.mem_filter.mp hp2 with ⟨hp2d, _⟩
      rcases List.mem_map.mp hp2d with ⟨p3, hp3, heq⟩
      exact ⟨p3, hp3, heq.symm⟩
    have hclosed' : ∀ p2 ∈ pmNext pm c seen, ∀ q2 ∈ p2.2,
        q2.1 ∈ mapKeys (pmNext pm c seen) ∨
          q2.1 ∈ rest ++ sortOpt less (frontierOf pm c seen) := by
      intro p2 hp2 q2 hq2
      obtain ⟨p3, hp3, rfl⟩ := hentry p2 hp2
      rcases List.mem_filter.mp hq2 with ⟨hq2m, hq2c⟩
      simp only [decide_eq_true_eq] at hq2c
      rcases hclosed p3 hp3 q2 hq2m with hk | hqueue
      · rcases (hmemkeys q2.1).mp hk with hf | hn
        · exact Or.inr (List.mem_append.mpr (Or.inr (mem_sortOpt.mpr hf)))
        · exact Or.inl hn
      · rcases List.mem_cons.mp hqueue with heq | hr
        · exact absurd heq hq2c
        · exact Or.inr (List.mem_append.mpr (Or.inl hr))
    have hrank' : ∀ p2 ∈ pmNext pm c seen, ∀ q2 ∈ p2.2,
        rank q2.1 < rank p2.1 := by
      intro p2 hp2 q2 hq2
      obtain ⟨p3, hp3, rfl⟩ := hentry p2 hp2
      exact hrank p3 hp3 q2 (List.mem_filter.mp hq2).1
    by_cases hqc : q.1 = c
    · have hvkeys : p.1 ∈ mapKeys pm := List.mem_map.mpr ⟨p, hp, rfl⟩
      have hvout : p.1 ∈ kahnLoop less inverted (pmNext pm c seen)
          (rest ++ sortOpt less (frontierOf pm c seen))
          (seen ++ frontierOf pm c seen) := by
        rw [(kahnLoop_perm less inverted _ _ _ hnd' hq').mem_iff, List.mem_append]
        rcases (hmemkeys p.1).mp hvkeys with hf | hn
        · exact Or.inl (List.mem_append.mpr (Or.inr (mem_sortOpt.mpr hf)))
        · exact Or.inr hn
      rw [hqc]
      exact List.cons_sublist_cons.mpr (List.singleton_sublist.mpr hvout)
    · have hq2f : q ∈ p.2.filter (fun q2 => decide (q2.1 ≠ c)) :=
        List.mem_filter.mpr ⟨hqmem, by simpa using hqc⟩
      have hps : (p.1, p.2.filter (fun q2 => decide (q2.1 ≠ c))) ∈ pmNext pm c seen := by
        refine List.mem_filter.mpr ⟨List.mem_map.mpr ⟨p, hp, rfl⟩, ?_⟩
        have hfne : (p.2.filter (fun q2 => decide (q2.1 ≠ c))).isEmpty = false :=
          Bool.eq_false_iff.mpr
            (fun h => List.ne_nil_of_mem hq2f (List.isEmpty_iff.mp h))
        show (!((p.2.filter (fun q2 => decide (q2.1 ≠ c))).isEmpty &&
          decide (p.1 ∉ seen))) = true
        rw [hfne]
        rfl
      exact List.Sublist.cons c
        (ih hnd' hq' hseen' hne' hclosed' hrank' _ hps q hq2f)
  | case2 seen =>
    intro _ _ _ _ _ _ p hp
    cases hp
  | case3 seen p0 rest0 c pm0 ih =>
    intro hnd hq hseen hne hclosed hrank
    exfalso
    have hSne : mapKeys (p0 :: rest0) ≠ [] := by
      rw [mapKeys, List.map_cons]
      exact List.cons_ne_nil _ _
    have hstep : ∀ v ∈ mapKeys (p0 :: rest0), ∃ u, u ∈ mapKeys (p0 :: rest0) ∧
        pmEdgeRel (p0 :: rest0) u v := by
      intro v hv
      rcases List.mem_map.mp hv with ⟨p, hp, hpv⟩
      rcases hp2 : p.2 with _ | ⟨q2, t2⟩
      · exact absurd hp2 (hne p hp)
      · have hq2m : q2 ∈ p.2 := by rw [hp2]; exact List.mem_cons_self q2 t2
        refine ⟨q2.1, ?_, p, hp, hpv, List.mem_map.mpr ⟨q2, hq2m, rfl⟩⟩
        rcases hclosed p hp q2 hq2m with hk | hqueue
        · exact hk
        · cases hqueue
    obtain ⟨x, htg⟩ := exists_transGen_cycle (pmEdgeRel (p0 :: rest0))
      (mapKeys (p0 :: rest0)) hSne hstep
    refine lt_irrefl (rank x) (transGen_rank_lt ?_ htg)
    intro u v huv
    obtain ⟨p, hp, hpv, hu⟩ := huv
    rcases List.mem_map.mp hu with ⟨q2, hq2, hq2u⟩
    rw [← hpv, ← hq2u]
    exact hrank p hp q2 hq2

/-- Zeta-reduced form of `StableTopologicalSort`. -/
theorem stableTopologicalSort_eq {K E : Type} [DecidableEq K]
    (pm : List (K × List (K × Edge K E))) (less : Option (K → K → Bool)) :
    StableTopologicalSort pm less =
      kahnLoop
        (match less with
         | none => none
         | some l => some (if isInvertedOf (pm.filter (fun p => !p.2.isEmpty))
            then (fun a b => l b a) else l))
        (isInvertedOf (pm.filter (fun p => !p.2.isEmpty)))
        (pm.filter (fun p => !p.2.isEmpty))
        (sortOpt
          (match less with
           | none => none
           | some l => some (if isInvertedOf (pm.filter (fun p => !p.2.isEmpty))
              then (fun a b => l b a) else l))
          (mapKeys (pm.filter (fun p => p.2.isEmpty))))
        (mapKeys (pm.filter (fun p => p.2.isEmpty))) := rfl

/-- C4: for every predecessor map of a directed acyclic graph (nodup keys,
one entry per vertex with every recorded predecessor among the keys, and
acyclicity certified by a rank function that increases along every
recorded edge, which exists exactly for DAGs), the sequence produced by
`StableTopologicalSort` under any comparator (hence also `TopologicalSort`,
which passes `none`) is a permutation of the key set in which, for every
recorded edge `(u, v)`, `u` is emitted before `v`. -/
theorem stableTopologicalSort_topsorts {K E : Type} [DecidableEq K]
    (pm : List (K × List (K × Edge K E))) (less : Option (K → K → Bool))
    (rank : K → Nat)
    (hnd : (mapKeys pm).Nodup)
    (hclosed : ∀ p ∈ pm, ∀ q ∈ p.2, q.1 ∈ mapKeys pm)
    (hrank : ∀ p ∈ pm, ∀ q ∈ p.2, rank q.1 < rank p.1) :
    (StableTopologicalSort pm less).Perm (mapKeys pm) ∧
    ∀ p ∈ pm, ∀ q ∈ p.2, [q.1, p.1].Sublist (StableTopologicalSort pm less) := by
  rw [stableTopologicalSort_eq]
  have hmemkeys : ∀ x, x ∈ mapKeys pm ↔
      (x ∈ mapKeys (pm.filter (fun p => p.2.isEmpty)) ∨
       x ∈ mapKeys (pm.filter (fun p => !p.2.isEmpty))) := by
    intro x
    rw [← (filterKeys_append_perm pm (fun p => p.2.isEmpty)).mem_iff, List.mem_append]
  have hnd1 : (mapKeys (pm.filter (fun p => !p.2.isEmpty))).Nodup := by
    refine List.Nodup.sublist ?_ hnd
    have := mapKeys_sublist_of_filter pm (fun p => !p.2.isEmpty)
    exact this
  have hq1 : ∀ k ∈ mapKeys (pm.filter (fun p => !p.2.isEmpty)),
      k ∉ sortOpt
        (match less with
         | none => none
         | some l => some (if isInvertedOf (pm.filter (fun p => !p.2.isEmpty))
            then (fun a b => l b a) else l))
        (mapKeys (pm.filter (fun p => p.2.isEmpty))) := by
    intro k hk hmem
    exact filterKeys_disjoint pm (fun p => p.2.isEmpty) hnd (mem_sortOpt.mp hmem) hk
  have hseen1 : ∀ k ∈ mapKeys (pm.filter (fun p => !p.2.isEmpty)),
      k ∉ mapKeys (pm.filter (fun p => p.2.isEmpty)) := by
    intro k hk hmem
    exact filterKeys_disjoint pm (fun p => p.2.isEmpty) hnd hmem hk
  have hne1 : ∀ p ∈ pm.filter (fun p => !p.2.isEmpty), p.2 ≠ [] := by
    intro p hp
    rcases List.mem_filter.mp hp with ⟨_, hp2⟩
    simp only [Bool.not_eq_true'] at hp2
    intro hnil
    rw [hnil] at hp2
    simp at hp2
  have hclosed1 : ∀ p ∈ pm.filter (fun p => !p.2.isEmpty), ∀ q ∈ p.2,
      q.1 ∈ mapKeys (pm.filter (fun p => !p.2.isEmpty)) ∨
        q.1 ∈ sortOpt
          (match less with
           | none => none
           | some l => some (if isInvertedOf (pm.filter (fun p => !p.2.isEmpty))
              then (fun a b => l b a) else l))
          (mapKeys (pm.filter (fun p => p.2.isEmpty))) := by
    intro p hp q hq
    have hpm := (List.mem_filter.mp hp).1
    rcases (hmemkeys q.1).mp (hclosed p hpm q hq) with h0 | h1
    · exact Or.inr (mem_sortOpt.mpr h0)
    · exact Or.inl h1
  have hrank1 : ∀ p ∈ pm.filter (fun p => !p.2.isEmpty), ∀ q ∈ p.2,
      rank q.1 < rank p.1 := by
    intro p hp q hq
    exact hrank p (List.mem_filter.mp hp).1 q hq
  constructor
  · refine (kahnLoop_perm _ _ _ _ _ hnd1 hq1).trans ?_
    refine List.Perm.trans ?_ (filterKeys_append_perm pm (fun p => p.2.isEmpty))
    exact (sortOpt_perm _ _).append_right _
  · intro p hp q hq
    have hp1 : p ∈ pm.filter (fun p => !p.2.isEmpty) := by
      refine List.mem_filter.mpr ⟨hp, ?_⟩
      show (!p.2.isEmpty) = true
      have hfne : p.2.isEmpty = false := by
        rcases hp2 : p.2 with _ | _
        · rw [hp2] at hq; cases hq
        · rfl
      rw [hfne]
      rfl
    exact kahnLoop_sorted _ _ rank _ _ _ hnd1 hq1 hseen1 hne1 hclosed1 hrank1
      p hp1 q hq

/-- C4 witness: scenario C's predecessor map (vertices 1..5, edges 1→2,
1→3, 2→3, 2→4, 2→5, 3→4, 4→5) with the natural-order comparator and the
identity rank. -/
theorem stableTopologicalSort_topsorts_witness :
    ((mapKeys pmScenarioC).Nodup ∧
     (∀ p ∈ pmScenarioC, ∀ q ∈ p.2, q.1 ∈ mapKeys pmScenarioC) ∧
     (∀ p ∈ pmScenarioC, ∀ q ∈ p.2, (fun k => k) q.1 < (fun k => k) p.1)) ∧
    ((StableTopologicalSort pmScenarioC (some (fun a b => decide (a < b)))).Perm
      (mapKeys pmScenarioC) ∧
     ∀ p ∈ pmScenarioC, ∀ q ∈ p.2, [q.1, p.1].Sublist
      (StableTopologicalSort pmScenarioC (some (fun a b => decide (a < b))))) :=
  ⟨⟨by decide, by decide, by decide⟩,
   stableTopologicalSort_topsorts pmScenarioC (some (fun a b => decide (a < b)))
     (fun k => k) (by decide) (by decide) (by decide)⟩

/-- C5 amended: on a predecessor map containing a directed cycle,
`TopologicalSort` reports nothing: its iterator yields bare keys and, via
the fallthrough that picks a least-blocked remaining vertex whenever the
queue empties, it still emits every key — the output is a permutation of
the key set with no error item. -/
theorem topologicalSort_emits_permutation_on_cycle {K E : Type} [DecidableEq K]
    (pm : List (K × List (K × Edge K E)))
    (hnd : (mapKeys pm).Nodup)
    (_hcyc : ∃ x, Relation.TransGen (pmEdgeRel pm) x x) :
    (TopologicalSort pm).Perm (mapKeys pm) := by
  rw [TopologicalSort, stableTopologicalSort_eq]
  have hnd1 : (mapKeys (pm.filter (fun p => !p.2.isEmpty))).Nodup :=
    List.Nodup.sublist (mapKeys_sublist_of_filter pm (fun p => !p.2.isEmpty)) hnd
  have hq1 : ∀ k ∈ mapKeys (pm.filter (fun p => !p.2.isEmpty)),
      k ∉ sortOpt none (mapKeys (pm.filter (fun p => p.2.isEmpty))) := by
    intro k hk hmem
    exact filterKeys_disjoint pm (fun p => p.2.isEmpty) hnd (mem_sortOpt.mp hmem) hk
  refine (kahnLoop_perm _ _ _ _ _ hnd1 hq1).trans ?_
  refine List.Perm.trans ?_ (filterKeys_append_perm pm (fun p => p.2.isEmpty))
  exact (sortOpt_perm _ _).append_right _

/-- C5 amended witness: the two-cycle predecessor map 1→2→1 has nodup keys
and a cycle, and the sort emits a permutation of its keys. -/
theorem topologicalSort_emits_permutation_on_cycle_witness :
    ((mapKeys pmCycle).Nodup ∧
     (∃ x, Relation.TransGen (pmEdgeRel pmCycle) x x)) ∧
    (TopologicalSort pmCycle).Perm (mapKeys pmCycle) := by
  have hedge12 : pmEdgeRel pmCycle 1 2 := by
    refine ⟨(2, [(1, ⟨1, 2, ⟨[], 0, ()⟩⟩)]), by decide, rfl, by decide⟩
  have hedge21 : pmEdgeRel pmCycle 2 1 := by
    refine ⟨(1, [(2, ⟨2, 1, ⟨[], 0, ()⟩⟩)]), by decide, rfl, by decide⟩
  have hcyc : ∃ x, Relation.TransGen (pmEdgeRel pmCycle) x x :=
    ⟨1, Relation.TransGen.head hedge12 (Relation.TransGen.single hedge21)⟩
  exact ⟨⟨by decide, hcyc⟩,
    topologicalSort_emits_permutation_on_cycle pmCycle (by decide) hcyc⟩

/-! ### Correctness of the backwards DFS (`CreatesCycle`) -/

/-- One step of the backwards search: `y` is listed among the neighbor
keys recorded for `x`. -/
def sbStep {K : Type} [DecidableEq K] (adjList : List (K × List K)) (x y : K) : Prop :=
  y ∈ mapGetD adjList x

/-- If every stack element is search-reachable from `s`, a successful
search means the target is search-reachable from `s`. -/
theorem searchBack_sound {K : Type} [DecidableEq K]
    (adjList : List (K × List K)) (target s : K) :
    ∀ (stack visited : List K),
      (∀ u ∈ stack, Relation.ReflTransGen (sbStep adjList) s u) →
      searchBack adjList target stack visited = true →
      Relation.ReflTransGen (sbStep adjList) s target := by
  intro stack visited
  induction stack, visited using searchBack.induct adjList target with
  | case1 visited =>
    intro _ htrue
    rw [searchBack] at htrue
    cases htrue
  | case2 c rest visited hc ih =>
    intro hstack htrue
    rw [searchBack, if_pos hc] at htrue
    exact ih (fun u hu => hstack u (List.mem_cons_of_mem c hu)) htrue
  | case3 rest visited hnv =>
    intro hstack _
    exact hstack target (List.mem_cons_self _ _)
  | case4 c rest visited hnv hnt ih =>
    intro hstack htrue
    rw [searchBack, if_neg hnv, if_neg hnt] at htrue
    refine ih ?_ htrue
    intro u hu
    rcases List.mem_append.mp hu with hn | hr
    · exact Relation.ReflTransGen.tail (hstack c (List.mem_cons_self _ _)) hn
    · exact hstack u (List.mem_cons_of_mem c hr)

/-- If the search fails, nothing on the stack or already visited can
search-reach the target (invariants: visited is closed up to the stack and
the target is unvisited). -/
theorem searchBack_complete {K : Type} [DecidableEq K]
    (adjList : List (K × List K)) (target : K) :
    ∀ (stack visited : List K),
      (∀ v ∈ visited, ∀ u ∈ mapGetD adjList v, u ∈ visited ∨ u ∈ stack) →
      target ∉ visited →
      searchBack adjList target stack visited = false →
      ∀ u, (u ∈ stack ∨ u ∈ visited) →
        ¬ Relation.ReflTransGen (sbStep adjList) u target := by
  intro stack visited
  induction stack, visited using searchBack.induct adjList target with
  | case1 visited =>
    intro hclosed htnv _ u hu hreach
    rcases hu with hu | hu
    · cases hu
    · have hstay : ∀ w, Relation.ReflTransGen (sbStep adjList) u w → w ∈ visited := by
        intro w hw
        induction hw with
        | refl => exact hu
        | tail _ hstep ihw =>
          rcases hclosed _ ihw _ hstep with h | h
          · exact h
          · cases h
      exact htnv (hstay target hreach)
  | case2 c rest visited hc ih =>
    intro hclosed htnv hfalse u hu hreach
    rw [searchBack, if_pos hc] at hfalse
    have hclosed2 : ∀ v ∈ visited, ∀ w ∈ mapGetD adjList v, w ∈ visited ∨ w ∈ rest := by
      intro v hv w hw
      rcases hclosed v hv w hw with h | h
      · exact Or.inl h
      · rcases List.mem_cons.mp h with rfl | h2
        · exact Or.inl hc
        · exact Or.inr h2
    refine ih hclosed2 htnv hfalse u ?_ hreach
    rcases hu with hu | hu
    · rcases List.mem_cons.mp hu with rfl | h2
      · exact Or.inr hc
      · exact Or.inl h2
    · exact Or.inr hu
  | case3 rest visited hnv =>
    intro _ _ hfalse
    rw [searchBack, if_neg hnv, if_pos rfl] at hfalse
    cases hfalse
  | case4 c rest visited hnv hnt ih =>
    intro hclosed htnv hfalse u hu hreach
    rw [searchBack, if_neg hnv, if_neg hnt] at hfalse
    have hclosed2 : ∀ v ∈ c :: visited, ∀ w ∈ mapGetD adjList v,
        w ∈ c :: visited ∨ w ∈ mapGetD adjList c ++ rest := by
      intro v hv w hw
      rcases List.mem_cons.mp hv with rfl | hv2
      · exact Or.inr (List.mem_append.mpr (Or.inl hw))
      · rcases hclosed v hv2 w hw with h | h
        · exact Or.inl (List.mem_cons_of_mem c h)
        · rcases List.mem_cons.mp h with rfl | h2
          · exact Or.inl (List.mem_cons_self _ _)
          · exact Or.inr (List.mem_append.mpr (Or.inr h2))
    have htnv2 : target ∉ c :: visited := by
      intro hmem
      rcases List.mem_cons.mp hmem with rfl | h2
      · exact hnt rfl
      · exact htnv h2
    refine ih hclosed2 htnv2 hfalse u ?_ hreach
    rcases hu with hu | hu
    · rcases List.mem_cons.mp hu with rfl | h2
      · exact Or.inr (List.mem_cons_self _ _)
      · exact Or.inl (List.mem_append.mpr (Or.inr h2))
    · exact Or.inr (List.mem_cons_of_mem c hu)

/-- The backwards DFS started at `s` succeeds exactly when the target is
search-reachable from `s`. -/
theorem searchBack_iff {K : Type} [DecidableEq K]
    (adjList : List (K × List K)) (target s : K) :
    searchBack adjList target [s] [] = true ↔
      Relation.ReflTransGen (sbStep adjList) s target := by
  constructor
  · refine searchBack_sound adjList target s [s] [] ?_
    intro u hu
    rcases List.mem_singleton.mp hu with rfl
    exact Relation.ReflTransGen.refl
  · intro hr
    by_contra hf
    have hfalse : searchBack adjList target [s] [] = false :=
      Bool.eq_false_iff.mpr hf
    exact searchBack_complete adjList target [s] []
      (fun v hv => absurd hv (List.not_mem_nil v)) (List.not_mem_nil target)
      hfalse s (Or.inl (List.mem_singleton.mpr rfl)) hr

/-! ### Lookup characterisations for the two `CreatesCycle` entry points -/

theorem mapLookup_eq_none_of_not_mem {K A : Type} [DecidableEq K]
    {m : List (K × A)} {k : K} (h : k ∉ mapKeys m) : mapLookup m k = none := by
  induction m with
  | nil => rfl
  | cons p t ih =>
    rw [mapLookup]
    rw [mapKeys, List.map_cons, List.mem_cons] at h
    rw [if_neg (fun he => h (Or.inl he.symm))]
    exact ih (fun h2 => h (Or.inr h2))

theorem mapLookup_mem {K A : Type} [DecidableEq K]
    {m : List (K × A)} {k : K} {a : A} (h : mapLookup m k = some a) : (k, a) ∈ m := by
  induction m with
  | nil => cases h
  | cons p t ih =>
    rw [mapLookup] at h
    by_cases he : p.1 = k
    · rw [if_pos he] at h
      rcases Option.some.inj h with rfl
      rw [← he]
      exact List.mem_cons_self _ _
    · rw [if_neg he] at h
      exact List.mem_cons_of_mem p (ih h)

theorem mem_mapLookup_of_nodup {K A : Type} [DecidableEq K]
    {m : List (K × A)} (hnd : (mapKeys m).Nodup) {k : K} {a : A}
    (h : (k, a) ∈ m) : mapLookup m k = some a := by
  induction m with
  | nil => cases h
  | cons p t ih =>
    rw [mapKeys, List.map_cons, List.nodup_cons] at hnd
    rw [mapLookup]
    rcases List.mem_cons.mp h with rfl | h2
    · rw [if_pos rfl]
    · rw [if_neg ?_]
      · exact ih hnd.2 h2
      · intro he
        exact hnd.1 (List.mem_map.mpr ⟨(k, a), h2, by rw [he]⟩)

theorem mapLookup_keyed_map {K A : Type} [DecidableEq K]
    (keys : List K) (f : K → A) (c : K) :
    mapLookup (keys.map (fun k => (k, f k))) c =
      if c ∈ keys then some (f c) else none := by
  induction keys with
  | nil => rfl
  | cons k t ih =>
    rw [List.map_cons, mapLookup]
    by_cases he : k = c
    · rw [if_pos he, he, if_pos (List.mem_cons_self c t)]
    · rw [if_neg he, ih]
      by_cases hm : c ∈ t
      · rw [if_pos hm, if_pos (List.mem_cons_of_mem k hm)]
      · rw [if_neg hm, if_neg ?_]
        intro h2
        rcases List.mem_cons.mp h2 with h3 | h3
        · exact he h3.symm
        · exact hm h3

theorem mapLookup_map_value {K A B : Type} [DecidableEq K]
    (m : List (K × A)) (f : A → B) (k : K) :
    mapLookup (m.map (fun p => (p.1, f p.2))) k = (mapLookup m k).map f := by
  induction m with
  | nil => rfl
  | cons p t ih =>
    rw [List.map_cons, mapLookup, mapLookup]
    by_cases he : p.1 = k
    · rw [if_pos he, if_pos he]
      rfl
    · rw [if_neg he, if_neg he, ih]

/-- For a directed graph, the neighbor keys consulted by the store's
`createsCycle` at `c` are exactly the keys of the in-edge bucket of `c`. -/
theorem cycleNbrs_getD {K V E : Type} [DecidableEq K] (g : MemoryGraph K V E)
    (hdir : g.traits.IsDirected = true) (c : K) :
    mapGetD g.cycleNbrs c = mapKeys (mapGetD g.inEdges c) := by
  rw [MemoryGraph.cycleNbrs, mapGetD, mapLookup_keyed_map]
  by_cases hm : c ∈ mapKeys g.inEdges ++ mapKeys g.outEdges
  · rw [if_pos hm, hdir]
    simp
  · rw [if_neg hm]
    have hn : mapLookup g.inEdges c = none := by
      apply mapLookup_eq_none_of_not_mem
      intro h2
      exact hm (List.mem_append.mpr (Or.inl h2))
    rw [Option.getD_none, mapGetD, hn, Option.getD_none]
    rfl

/-- The neighbor keys consulted by the generic `CreatesCycle` at `c` are
the keys of the predecessor-map bucket of `c`. -/
theorem predNbrs_getD {K E : Type} [DecidableEq K]
    (pred : List (K × List (K × Edge K E))) (c : K) :
    mapGetD (predNbrs pred) c = mapKeys (mapGetD pred c) := by
  rw [predNbrs, mapGetD, mapGetD]
  have h : mapLookup (pred.map (fun p => (p.1, mapKeys p.2))) c =
      (mapLookup pred c).map mapKeys := mapLookup_map_value pred mapKeys c
  rw [h]
  cases mapLookup pred c with
  | none => rfl
  | some b => rfl

theorem mapLookup_mapInsert {K A : Type} [DecidableEq K]
    (m : List (K × A)) (k x : K) (a : A) :
    mapLookup (mapInsert m k a) x =
      if k = x then some a else mapLookup m x := by
  induction m with
  | nil => simp [mapInsert, mapLookup]
  | cons p t ih =>
    obtain ⟨k2, b⟩ := p
    rw [mapInsert]
    by_cases he : k2 = k
    · rw [if_pos he]
      subst he
      by_cases hx : k2 = x <;> simp [mapLookup, hx]
    · rw [if_neg he]
      by_cases hx : k2 = x
      · have hkx : ¬ k = x := fun h => he (hx.trans h.symm)
        simp [mapLookup, hx, hkx]
      · simp [mapLookup, hx, ih]

theorem mapGetD_mapInsert2 {K A : Type} [DecidableEq K]
    (m : List (K × List (K × A))) (k1 k2 x : K) (a : A) :
    mapGetD (mapInsert2 m k1 k2 a) x =
      if k1 = x then mapInsert (mapGetD m k1) k2 a else mapGetD m x := by
  rw [mapInsert2, mapGetD, mapLookup_mapInsert]
  by_cases he : k1 = x
  · rw [if_pos he, if_pos he, Option.getD_some]
  · rw [if_neg he, if_neg he, mapGetD]

theorem mem_mapKeys_mapInsert {K A : Type} [DecidableEq K]
    (m : List (K × A)) (k x : K) (a : A) :
    x ∈ mapKeys (mapInsert m k a) ↔ x = k ∨ x ∈ mapKeys m := by
  induction m with
  | nil => simp [mapInsert, mapKeys, eq_comm]
  | cons p t ih =>
    obtain ⟨k2, b⟩ := p
    rw [mapInsert]
    by_cases he : k2 = k
    · rw [if_pos he]
      subst he
      simp [mapKeys, eq_comm]
    · rw [if_neg he]
      simp only [mapKeys, List.map_cons, List.mem_cons] at ih ⊢
      rw [ih]
      tauto

/-- The stored directed edge relation: `u → v` when `v` appears in the
out-edge bucket of `u`. -/
def edgeRel {K V E : Type} [DecidableEq K] (g : MemoryGraph K V E) (u v : K) : Prop :=
  v ∈ mapKeys (mapGetD g.outEdges u)

/-- The store invariant relating the two adjacency indexes: keys of each
index are nodup, and each index mirrors the other entry by entry. -/
def WellFormed {K V E : Type} [DecidableEq K] (g : MemoryGraph K V E) : Prop :=
  (mapKeys g.inEdges).Nodup ∧ (mapKeys g.outEdges).Nodup ∧
  (∀ p ∈ g.inEdges, ∀ q ∈ p.2, p.1 ∈ mapKeys (mapGetD g.outEdges q.1)) ∧
  (∀ p ∈ g.outEdges, ∀ q ∈ p.2, p.1 ∈ mapKeys (mapGetD g.inEdges q.1))

theorem inKeys_iff_edgeRel {K V E : Type} [DecidableEq K] (g : MemoryGraph K V E)
    (hwf : WellFormed g) (x y : K) :
    y ∈ mapKeys (mapGetD g.inEdges x) ↔ edgeRel g y x := by
  obtain ⟨_, _, h1, h2⟩ := hwf
  constructor
  · intro h
    rcases hlk : mapLookup g.inEdges x with _ | b
    · rw [mapGetD, hlk] at h
      simp [mapKeys] at h
    · rw [mapGetD, hlk, Option.getD_some] at h
      rcases List.mem_map.mp h with ⟨q, hq, hq1⟩
      have hmem := mapLookup_mem hlk
      have hx := h1 (x, b) hmem q hq
      rw [hq1] at hx
      exact hx
  · intro h
    rcases hlk : mapLookup g.outEdges y with _ | b
    · rw [edgeRel, mapGetD, hlk] at h
      simp [mapKeys] at h
    · rw [edgeRel, mapGetD, hlk, Option.getD_some] at h
      rcases List.mem_map.mp h with ⟨q, hq, hq1⟩
      have hmem := mapLookup_mem hlk
      have hy := h2 (y, b) hmem q hq
      rw [hq1] at hy
      exact hy

/-- Emptied-out init map of `PredecessorMap`: every bucket starts empty. -/
theorem initPred_getD {K V E : Type} [DecidableEq K]
    (verts : List (K × Vertex V)) (x : K) :
    mapGetD (verts.map (fun p => (p.1, ([] : List (K × Edge K E))))) x = [] := by
  induction verts with
  | nil => rfl
  | cons p t ih =>
    rw [List.map_cons, mapGetD, mapLookup]
    by_cases he : p.1 = x
    · rw [if_pos he, Option.getD_some]
    · rw [if_neg he]
      exact ih

/-- Embeds `PredecessorMap` of a directed graph is the plain double fold of
`mapInsert2` over the out-edge index. -/
theorem predMap_directed_eq {K V E : Type} [DecidableEq K] (g : MemoryGraph K V E)
    (hdir : g.traits.IsDirected = true) :
    g.PredecessorMap = g.outEdges.foldl
      (fun pred bucket => bucket.2.foldl
        (fun pred te =>
          mapInsert2 pred te.1 bucket.1 ⟨bucket.1, te.1, te.2.properties⟩) pred)
      (g.vertices.map (fun p => (p.1, []))) := by
  rw [MemoryGraph.PredecessorMap]
  simp only [hdir, Bool.not_true, Bool.false_eq_true, if_false]

/-- Key membership after folding one out-edge bucket into the map. -/
theorem foldBucket_keys {K E : Type} [DecidableEq K] (src : K) :
    ∀ (inner : List (K × Edge K E)) (acc : List (K × List (K × Edge K E))) (x u : K),
      (u ∈ mapKeys (mapGetD
        (inner.foldl (fun pred te =>
          mapInsert2 pred te.1 src ⟨src, te.1, te.2.properties⟩) acc) x) ↔
       (u ∈ mapKeys (mapGetD acc x) ∨ (u = src ∧ x ∈ mapKeys inner))) := by
  intro inner
  induction inner with
  | nil =>
    intro acc x u
    simp [mapKeys]
  | cons te rest ih =>
    intro acc x u
    rw [List.foldl_cons, ih, mapGetD_mapInsert2]
    by_cases he : te.1 = x
    · rw [if_pos he, mem_mapKeys_mapInsert, he]
      have hxk : x ∈ mapKeys (te :: rest) :=
        List.mem_map.mpr ⟨te, List.mem_cons_self _ _, he⟩
      constructor
      · rintro ((h1 | h2) | ⟨h3, h4⟩)
        · exact Or.inr ⟨h1, hxk⟩
        · exact Or.inl h2
        · exact Or.inr ⟨h3, hxk⟩
      · rintro (h1 | ⟨h2, _⟩)
        · exact Or.inl (Or.inr h1)
        · exact Or.inl (Or.inl h2)
    · rw [if_neg he]
      have hxk : (x ∈ mapKeys (te :: rest)) ↔ x ∈ mapKeys rest := by
        simp only [mapKeys, List.map_cons, List.mem_cons]
        constructor
        · rintro (h1 | h2)
          · exact absurd h1.symm he
          · exact h2
        · exact fun h => Or.inr h
      rw [hxk]

/-- Key membership after folding the whole out-edge index into the map. -/
theorem foldOuter_keys {K E : Type} [DecidableEq K] :
    ∀ (buckets : List (K × List (K × Edge K E)))
      (acc : List (K × List (K × Edge K E))) (x u : K),
      (u ∈ mapKeys (mapGetD
        (buckets.foldl (fun pred bucket => bucket.2.foldl
          (fun pred te =>
            mapInsert2 pred te.1 bucket.1 ⟨bucket.1, te.1, te.2.properties⟩) pred) acc) x) ↔
       (u ∈ mapKeys (mapGetD acc x) ∨
        ∃ bucket ∈ buckets, bucket.1 = u ∧ x ∈ mapKeys bucket.2)) := by
  intro buckets
  induction buckets with
  | nil =>
    intro acc x u
    simp
  | cons bucket rest ih =>
    intro acc x u
    rw [List.foldl_cons, ih, foldBucket_keys bucket.1 bucket.2 acc x u]
    constructor
    · rintro ((h | ⟨h1, h2⟩) | ⟨b, hb, h1, h2⟩)
      · exact Or.inl h
      · exact Or.inr ⟨bucket, List.mem_cons_self _ _, h1.symm, h2⟩
      · exact Or.inr ⟨b, List.mem_cons_of_mem _ hb, h1, h2⟩
    · rintro (h | ⟨b, hb, h1, h2⟩)
      · exact Or.inl (Or.inl h)
      · rcases List.mem_cons.mp hb with rfl | hb2
        · exact Or.inl (Or.inr ⟨h1.symm, h2⟩)
        · exact Or.inr ⟨b, hb2, h1, h2⟩

/-- For a directed graph, the predecessor-map bucket keys of `x` are
exactly the sources of stored edges into `x`. -/
theorem predMap_keys_iff {K V E : Type} [DecidableEq K] (g : MemoryGraph K V E)
    (hdir : g.traits.IsDirected = true) (x u : K) :
    u ∈ mapKeys (mapGetD g.PredecessorMap x) ↔
      ∃ bucket ∈ g.outEdges, bucket.1 = u ∧ x ∈ mapKeys bucket.2 := by
  rw [predMap_directed_eq g hdir, foldOuter_keys, initPred_getD]
  simp [mapKeys]

theorem predMap_keys_iff_edgeRel {K V E : Type} [DecidableEq K]
    (g : MemoryGraph K V E) (hdir : g.traits.IsDirected = true)
    (hnd : (mapKeys g.outEdges).Nodup) (x u : K) :
    u ∈ mapKeys (mapGetD g.PredecessorMap x) ↔ edgeRel g u x := by
  rw [predMap_keys_iff g hdir]
  constructor
  · rintro ⟨b, hb, h1, h2⟩
    have hlk : mapLookup g.outEdges b.1 = some b.2 := mem_mapLookup_of_nodup hnd hb
    rw [edgeRel, ← h1, mapGetD, hlk, Option.getD_some]
    exact h2
  · intro h
    rcases hlk : mapLookup g.outEdges u with _ | b
    · rw [edgeRel, mapGetD, hlk] at h
      simp [mapKeys] at h
    · rw [edgeRel, mapGetD, hlk, Option.getD_some] at h
      exact ⟨(u, b), mapLookup_mem hlk, rfl, h⟩

theorem rtg_iff_of_iff {α : Type} {r s : α → α → Prop}
    (h : ∀ x y, r x y ↔ s x y) (a b : α) :
    Relation.ReflTransGen r a b ↔ Relation.ReflTransGen s a b :=
  ⟨Relation.ReflTransGen.mono (fun x y => (h x y).mp),
   Relation.ReflTransGen.mono (fun x y => (h x y).mpr)⟩

theorem rtg_flip_iff {α : Type} (r : α → α → Prop) (a b : α) :
    Relation.ReflTransGen (fun x y => r y x) a b ↔ Relation.ReflTransGen r b a := by
  constructor
  · intro h
    induction h with
    | refl => exact Relation.ReflTransGen.refl
    | tail _ hstep ihr => exact Relation.ReflTransGen.head hstep ihr
  · intro h
    induction h with
    | refl => exact Relation.ReflTransGen.refl
    | tail _ hstep ihr => exact Relation.ReflTransGen.head hstep ihr

/-- C8: on a directed well-formed store holding `s` and `t`, both the
store's specialised `CreatesCycle` (walking the in-edge index) and the
generic `CreatesCycle` (walking the materialised predecessor map) return
true exactly when `t` reaches `s` along stored directed edges or `s = t`. -/
theorem createsCycle_iff_reaches {K V E : Type} [DecidableEq K]
    (g : MemoryGraph K V E) (s t : K)
    (hdir : g.traits.IsDirected = true) (hwf : WellFormed g)
    (_hs : s ∈ mapKeys g.vertices) (_ht : t ∈ mapKeys g.vertices) :
    (g.CreatesCycle s t = true ↔
      (Relation.ReflTransGen (edgeRel g) t s ∨ s = t)) ∧
    (CreatesCycle g s t = true ↔
      (Relation.ReflTransGen (edgeRel g) t s ∨ s = t)) := by
  have hkey : ∀ x y, sbStep g.cycleNbrs x y ↔ edgeRel g y x := by
    intro x y
    rw [sbStep, cycleNbrs_getD g hdir]
    exact inKeys_iff_edgeRel g hwf x y
  have hkey2 : ∀ x y, sbStep (predNbrs g.PredecessorMap) x y ↔ edgeRel g y x := by
    intro x y
    rw [sbStep, predNbrs_getD]
    exact predMap_keys_iff_edgeRel g hdir hwf.2.1 x y
  constructor
  · rw [MemoryGraph.CreatesCycle, MemoryGraph.createsCycle]
    by_cases hst : s = t
    · simp [hst]
    · rw [if_neg hst, if_neg hst, searchBack_iff,
        rtg_iff_of_iff hkey s t, rtg_flip_iff]
      constructor
      · exact fun h => Or.inl h
      · rintro (h | h)
        · exact h
        · exact absurd h hst
  · rw [CreatesCycle]
    by_cases hst : s = t
    · simp [hst]
    · rw [if_neg hst, searchBack_iff, rtg_iff_of_iff hkey2 s t, rtg_flip_iff]
      constructor
      · exact fun h => Or.inl h
      · rintro (h | h)
        · exact h
        · exact absurd h hst

/-- C8 witness: on the directed chain 1→2→3, `CreatesCycle 3 1` (both
implementations) is characterised by reachability of 3 from 1. -/
theorem createsCycle_iff_reaches_witness :
    (gChain.traits.IsDirected = true ∧ WellFormed gChain ∧
     (3 : Nat) ∈ mapKeys gChain.vertices ∧ (1 : Nat) ∈ mapKeys gChain.vertices) ∧
    ((gChain.CreatesCycle 3 1 = true ↔
       (Relation.ReflTransGen (edgeRel gChain) 1 3 ∨ (3 : Nat) = 1)) ∧
     (CreatesCycle gChain 3 1 = true ↔
       (Relation.ReflTransGen (edgeRel gChain) 1 3 ∨ (3 : Nat) = 1))) :=
  ⟨⟨by decide, ⟨by decide, by decide, by decide, by decide⟩, by decide, by decide⟩,
   createsCycle_iff_reaches gChain 3 1 (by decide)
     ⟨by decide, by decide, by decide, by decide⟩ (by decide) (by decide)⟩

end GraphLib
